import Mathlib

/-!
# Verification of the rCore filesystem and synchronization core

Shallow embedding of the repository's two core subsystems:

* the easy-fs virtual-inode layer (`src/easy-fs/src/vfs.rs`) together with the
  parts of the filesystem object and disk-inode layout it depends on
  (`efs.rs`/`layout.rs` are not shipped in the sources; those parts are
  modelled from the specification, see the doc comments below), and
* the in-kernel synchronization subsystem: the per-process resource monitor
  with Banker's style deadlock detection (`src/os/src/sync/resmon.rs`), the
  two mutex flavors (`src/os/src/sync/mutex.rs`), the counting semaphore
  (`src/os/src/sync/semaphore.rs`) and the fd-taking filesystem syscalls
  (`src/os/src/syscall/fs.rs`).

Machine integers are modelled as `Nat`/`Int` with explicit wrap-around
(`% 2^32`) where the Rust code performs `u32`/`i32` arithmetic whose overflow
is reachable (release-profile wrapping semantics).  Rust panics (failed
asserts, out-of-bounds indexing, `Option::unwrap` on `None`) are modelled
with `Option`, `none` standing for the abort.
-/

set_option maxRecDepth 16384

namespace Spec2Proof

/-! ## Filesystem data model -/

/-- A directory entry: 27-byte NUL-padded name plus a 32-bit inode id.
(`DirEntry` of easy-fs; the byte padding is immaterial to every claim, the
name and inode id are kept abstractly.) -/
structure DirEntry where
  name : String
  inode_id : Nat
deriving DecidableEq, Repr

/-- Disk inode type (`DiskInodeType` of easy-fs). -/
inductive DiskInodeType where
  | file
  | dir
deriving DecidableEq, Repr

/-- A disk inode.  `size` is the byte size for files; for directories the
payload is kept as the structured entry list `entries` (the on-disk byte size
of a directory is `32 * entries.length`, maintained by every directory
operation of the source).  `dataBlocks` is the list of block ids wired into
the direct/indirect map in the canonical fill order, index blocks included
(`increase_size` appends to it, `decrease_size` truncates it in reverse
order). -/
structure DInode where
  ty : DiskInodeType
  size : Nat
  entries : List DirEntry
  dataBlocks : List Nat
deriving DecidableEq, Repr

/-- The byte size of a directory inode: 32 bytes per entry (`DIRENT_SZ`). -/
def DInode.dirSize (d : DInode) : Nat := 32 * d.entries.length

/-- A zero-initialized `File` disk inode (`DiskInode::initialize(File)`). -/
def emptyFileInode : DInode := ⟨DiskInodeType.file, 0, [], []⟩

/-- Modelled from the spec: the filesystem object of `efs.rs` (not shipped in
the sources).  Inode bitmap, data bitmap (each bit = allocated) and the inode
area indexed by inode id.  Data block ids are indices into `dataBitmap`. -/
structure EasyFileSystem where
  inodeBitmap : List Bool
  dataBitmap : List Bool
  inodes : List DInode
deriving DecidableEq, Repr

/-- Number of entries of the inode bitmap that are set (allocated inodes). -/
def EasyFileSystem.inodePopcount (fs : EasyFileSystem) : Nat :=
  (fs.inodeBitmap.filter id).length

/-- Number of entries of the data bitmap that are set (allocated blocks). -/
def EasyFileSystem.dataPopcount (fs : EasyFileSystem) : Nat :=
  (fs.dataBitmap.filter id).length

/-- Modelled from the spec: first-fit bitmap allocation, scanning bits
low-to-high; returns the index of the first clear bit and sets it (`Bitmap::
alloc` of easy-fs, not shipped); `none` when the bitmap is full. -/
def allocBit : List Bool → Option (Nat × List Bool)
  | [] => none
  | b :: bs =>
    if b then
      (allocBit bs).map (fun p => (p.1 + 1, b :: p.2))
    else
      some (0, true :: bs)

/-- Modelled from the spec: `alloc_inode` scans the inode bitmap. -/
def EasyFileSystem.allocInode (fs : EasyFileSystem) : Option (Nat × EasyFileSystem) :=
  (allocBit fs.inodeBitmap).map (fun p => (p.1, { fs with inodeBitmap := p.2 }))

/-- Modelled from the spec: `alloc_data` scans the data bitmap. -/
def EasyFileSystem.allocData (fs : EasyFileSystem) : Option (Nat × EasyFileSystem) :=
  (allocBit fs.dataBitmap).map (fun p => (p.1, { fs with dataBitmap := p.2 }))

/-- Modelled from the spec: `dealloc_data` clears the block's bitmap bit
(and zeroes the block, immaterial here). -/
def EasyFileSystem.deallocData (fs : EasyFileSystem) (blk : Nat) : EasyFileSystem :=
  { fs with dataBitmap := fs.dataBitmap.set blk false }

/-- Allocate `n` data blocks in a row (the loop of `Inode::increase_size` in
`vfs.rs`, which pushes `fs.alloc_data()` results into a vector). -/
def EasyFileSystem.allocDataN (fs : EasyFileSystem) : Nat → Option (List Nat × EasyFileSystem)
  | 0 => some ([], fs)
  | n + 1 =>
    (fs.allocData).bind (fun p =>
      (p.2.allocDataN n).map (fun q => (p.1 :: q.1, q.2)))

/-- Modelled from the spec: block number of the start of the inode area (the
blocks before it hold the superblock and the inode bitmap; the concrete value
only has to be a fixed layout constant). -/
def INODE_AREA_START : Nat := 2

/-- Modelled from the spec: `get_disk_inode_pos`, mapping an inode id to the
`(block_id, block_offset)` of its 128-byte disk inode, four inodes per
512-byte block. -/
def getDiskInodePos (ino : Nat) : Nat × Nat :=
  (INODE_AREA_START + ino / 4, (ino % 4) * 128)

/-- Modelled from the spec: data blocks needed for a `size`-byte file
(`DiskInode::data_blocks`): `ceil(size / 512)`. -/
def dataBlocksFor (size : Nat) : Nat := (size + 511) / 512

/-- Modelled from the spec: `DiskInode::total_blocks` — data blocks plus the
index blocks of the `direct[28]` / `indirect1` (128 entries) / `indirect2`
(128×128) map needed to reach `size`. -/
def totalBlocksFor (size : Nat) : Nat :=
  let d := dataBlocksFor size
  if d ≤ 28 then d
  else if d ≤ 28 + 128 then d + 1
  else d + 2 + (d - 28 - 128 + 127) / 128

/-- The root directory's disk inode (inode id 0 is the root). -/
def rootDir (fs : EasyFileSystem) : DInode := fs.inodes.getD 0 emptyFileInode

/-- Replace disk inode `ino` of the inode area. -/
def setInode (fs : EasyFileSystem) (ino : Nat) (d : DInode) : EasyFileSystem :=
  { fs with inodes := fs.inodes.set ino d }

/-! ## VFS directory operations (`src/easy-fs/src/vfs.rs`) -/

/-- `Inode::find_inode_id`: linear scan of the directory entries, first entry
whose name matches wins. -/
def find_inode_id (name : String) (d : DInode) : Option Nat :=
  (d.entries.find? (fun e => e.name == name)).map (fun e => e.inode_id)

/-- The `for i in 0..file_count` scan of `Inode::find_dentry`, carrying the
running index. -/
def findDentryAux (name : String) : Nat → List DirEntry → Option (Nat × DirEntry)
  | _, [] => none
  | i, e :: es => if e.name == name then some (i, e) else findDentryAux name (i + 1) es

/-- `Inode::find_dentry`: like `find_inode_id` but also returns the entry's
index in the directory. -/
def find_dentry (name : String) (d : DInode) : Option (Nat × DirEntry) :=
  findDentryAux name 0 d.entries

/-- `Inode::find_inode_by_id`: every name in the directory mapping to `id`,
in directory order. -/
def find_inode_by_id (id : Nat) (d : DInode) : List String :=
  (d.entries.filter (fun e => e.inode_id == id)).map (fun e => e.name)

/-- `Inode::find_ino_by_blkid_locked`: scan the directory for an entry whose
disk-inode position equals `pos`, returning its inode id. -/
def find_ino_by_blkid (pos : Nat × Nat) (d : DInode) : Option Nat :=
  (d.entries.find? (fun e => getDiskInodePos e.inode_id == pos)).map
    (fun e => e.inode_id)

/-- The shared body of `create`/`vfs_link` that appends one directory entry to
the root: grow the root by one 32-byte slot (`Inode::increase_size`, which
allocates `blocks_num_needed = total_blocks(new) - total_blocks(old)` fresh
data blocks from the filesystem) and write the new entry at index
`file_count`.  `none` when the data bitmap is exhausted. -/
def dirAppend (fs : EasyFileSystem) (name : String) (ino : Nat) :
    Option EasyFileSystem :=
  let root := rootDir fs
  let oldSize := 32 * root.entries.length
  let newSize := oldSize + 32
  let needed := totalBlocksFor newSize - totalBlocksFor oldSize
  (fs.allocDataN needed).map (fun p =>
    setInode p.2 0 { root with
      entries := root.entries ++ [⟨name, ino⟩],
      dataBlocks := root.dataBlocks ++ p.1 })

/-- `Inode::create`: fail (`None`) if the name exists; allocate an inode,
initialize it as a `File`, and append the `(name, new_id)` entry to the root
directory. -/
def Inode.create (fs : EasyFileSystem) (name : String) :
    Option (Nat × EasyFileSystem) :=
  if (find_inode_id name (rootDir fs)).isSome then none
  else
    (fs.allocInode).bind (fun p =>
      let fs1 := setInode p.2 p.1 emptyFileInode
      (dirAppend fs1 name p.1).map (fun fs2 => (p.1, fs2)))

/-- `Inode::vfs_link`: if `old_name` resolves, append a directory entry
`(new_name, old inode id)` — no existence check on `new_name`, no inode
allocation; `-1` when `old_name` is absent.  The outer `Option` is the
out-of-space abort of the directory growth. -/
def Inode.vfs_link (fs : EasyFileSystem) (old_name new_name : String) :
    Option (Int × EasyFileSystem) :=
  match find_dentry old_name (rootDir fs) with
  | some (_, src_dent) =>
    (dirAppend fs new_name src_dent.inode_id).map (fun fs1 => ((0 : Int), fs1))
  | none => some (-1, fs)

/-- `Inode::vfs_unlink`: locate the entry; when it is the only directory
entry with that inode id, run `clear_size` on the target disk inode — the
source drops the returned freed-block list on the floor (no `dealloc_data`)
and never calls `dealloc_inode`, so both bitmaps keep the target's bits set;
then compact the root directory (copy the last entry over slot `idx` unless
`idx` is last) and shrink it by one 32-byte slot, deallocating the data
blocks freed by the shrink (`Inode::decrease_size` does call
`fs.dealloc_data`). -/
def Inode.vfs_unlink (fs : EasyFileSystem) (name : String) :
    Int × EasyFileSystem :=
  match find_dentry name (rootDir fs) with
  | none => (-1, fs)
  | some (idx, dent) =>
    let links := (find_inode_by_id dent.inode_id (rootDir fs)).length
    let fs1 :=
      if links == 1 then
        let tgt := fs.inodes.getD dent.inode_id emptyFileInode
        setInode fs dent.inode_id { tgt with size := 0, dataBlocks := [] }
      else fs
    let root := rootDir fs1
    let cnt := root.entries.length
    let entries1 :=
      if idx < cnt - 1 then
        root.entries.set idx (root.entries.getD (cnt - 1) ⟨"", 0⟩)
      else root.entries
    let keep := totalBlocksFor ((cnt - 1) * 32)
    let freed := root.dataBlocks.drop keep
    let fs2 := setInode fs1 0 { root with
      entries := entries1.take (cnt - 1),
      dataBlocks := root.dataBlocks.take keep }
    (0, freed.foldl EasyFileSystem.deallocData fs2)

/-- `Inode::ls`: the entry names in directory order. -/
def Inode.ls (fs : EasyFileSystem) : List String :=
  (rootDir fs).entries.map (fun e => e.name)

/-- `Inode::inode_id`: scan the root directory for the entry whose disk-inode
position matches the handle's `(block_id, block_offset)` and `unwrap` the
result; `none` models the `unwrap` panic when no entry matches. -/
def Inode.inodeId (fs : EasyFileSystem) (pos : Nat × Nat) : Option Nat :=
  find_ino_by_blkid pos (rootDir fs)

/-- The inode-number and link-count computation on the open-slot path of
`sys_fstat`: `file.inode().unwrap().inode_id()` — which panics when the
handle's disk inode is no longer referenced from the root directory — then
`ROOT_INODE.find_by_id(ino).len()`.  `none` models the kernel panic. -/
def sysFstatIno (fs : EasyFileSystem) (pos : Nat × Nat) : Option (Nat × Nat) :=
  (Inode.inodeId fs pos).map (fun ino =>
    (ino, (find_inode_by_id ino (rootDir fs)).length))

/-- A freshly formatted filesystem with `ni` free inode slots besides the
root and `nd` free data blocks: inode 0 is the (empty) root directory and its
bitmap bit is set. -/
def mkFs (ni nd : Nat) : EasyFileSystem :=
  { inodeBitmap := true :: List.replicate ni false,
    dataBitmap := List.replicate nd false,
    inodes := ⟨DiskInodeType.dir, 0, [], []⟩ :: List.replicate ni emptyFileInode }

/-! ## Machine-integer helpers

`alloc`/`need` cells are Rust `u32`, `avail` cells are `i32`, the semaphore
count is `isize`.  Wrap-around is made explicit (release-profile semantics). -/

/-- `u32` wrap-around. -/
def wrapU32 (n : Nat) : Nat := n % 2 ^ 32

/-- The `as i32` cast of a `u32` value. -/
def u32cast (n : Nat) : Int := if n < 2 ^ 31 then (n : Int) else (n : Int) - 2 ^ 32

/-- `i32` wrap-around of an exact integer result. -/
def wrapI32 (x : Int) : Int := (x + 2 ^ 31) % 2 ^ 32 - 2 ^ 31

/-- The deadlock sentinel `-0xDEAD` (`src/os/src/sync/resmon.rs`). -/
def DEAD_LOCK : Int := -0xDEAD

/-! ## Resource monitor (`src/os/src/sync/resmon.rs`) -/

/-- The per-process Banker's matrices: `avail : VecDeque<i32>`,
`alloc, need : VecDeque<VecDeque<u32>>`. -/
structure ResMonitor where
  avail : List Int
  alloc : List (List Nat)
  need : List (List Nat)
deriving DecidableEq, Repr

/-- The fresh monitor (`ResMonitor::new`). -/
def ResMonitor.new : ResMonitor := ⟨[], [], []⟩

/-- `ResMonitor::create_res`: push `num as i32` onto `avail`, return the new
column's index. -/
def ResMonitor.createRes (m : ResMonitor) (num : Nat) : ResMonitor × Nat :=
  ({ m with avail := m.avail ++ [u32cast num] }, m.avail.length)

/-- Cell read of a matrix (zero outside the stored rectangle, matching the
zero-initialization of the lazily grown rows and columns). -/
def mval (mat : List (List Nat)) (t r : Nat) : Nat := (mat.getD t []).getD r 0

/-- In-bounds cell write of a matrix. -/
def setCell (mat : List (List Nat)) (t r : Nat) (v : Nat) : List (List Nat) :=
  mat.set t ((mat.getD t []).set r v)

/-- `VecDeque::resize`: truncate or pad with `v` to length `n`. -/
def vecResize (l : List α) (n : Nat) (v : α) : List α :=
  l.take n ++ List.replicate (n - l.length) v

/-- The lazy matrix growth performed at the top of `acquire`, `need` and
`check`: grow to at least `tid + 1` rows of zeroes (each fresh row of length
`avail.len()`), then, when row 0 is shorter than `avail.len()`, grow every
row to that length. -/
def growMat (mat : List (List Nat)) (tid availLen : Nat) : List (List Nat) :=
  let m1 :=
    if mat.length < tid + 1 then vecResize mat (tid + 1) (List.replicate availLen 0)
    else mat
  if (m1.headD []).length < availLen then m1.map (fun row => vecResize row availLen 0)
  else m1

/-- Grow both matrices for thread `tid`. -/
def ResMonitor.grow (m : ResMonitor) (tid : Nat) : ResMonitor :=
  { m with need := growMat m.need tid m.avail.length,
           alloc := growMat m.alloc tid m.avail.length }

/-- `SyncRes::acquire` (thread `tid`, resource `resid`): grow the matrices;
`avail[resid] -= 1`; `alloc[tid][resid] += 1`; clear `need[tid][resid]` if it
was positive. -/
def SyncRes.acquire (m : ResMonitor) (tid resid : Nat) : ResMonitor :=
  let m1 := m.grow tid
  let m2 := { m1 with
    avail := m1.avail.set resid (wrapI32 (m1.avail.getD resid 0 - 1)),
    alloc := setCell m1.alloc tid resid (wrapU32 (mval m1.alloc tid resid + 1)) }
  if 0 < mval m2.need tid resid then { m2 with need := setCell m2.need tid resid 0 }
  else m2

/-- `SyncRes::need`: grow the matrices; if `need[tid][resid]` is already
positive do nothing (idempotent), else `need[tid][resid] += 1`. -/
def SyncRes.needOp (m : ResMonitor) (tid resid : Nat) : ResMonitor :=
  let m1 := m.grow tid
  if 0 < mval m1.need tid resid then m1
  else { m1 with need := setCell m1.need tid resid (wrapU32 (mval m1.need tid resid + 1)) }

/-- `SyncRes::release`: `avail[resid] += 1`; `alloc[tid][resid] -= 1` — no
matrix growth is performed here, and the `u32` decrement wraps when the cell
is zero. -/
def SyncRes.release (m : ResMonitor) (tid resid : Nat) : ResMonitor :=
  { m with
    avail := m.avail.set resid (wrapI32 (m.avail.getD resid 0 + 1)),
    alloc := setCell m.alloc tid resid (wrapU32 (mval m.alloc tid resid + 2 ^ 32 - 1)) }

/-! ## The Banker's safety loop of `SyncRes::check` -/

/-- The inner `fulfil` scan of `check`: thread with need row `needRow` is
fulfillable when no resource `r` has `need[t][r] as i32 > 0` and
`need[t][r] as i32 > budget[r]`. -/
def fulfilB (needRow : List Nat) (budget : List Int) : Bool :=
  (List.range budget.length).all (fun r =>
    if 0 < u32cast (needRow.getD r 0) ∧ budget.getD r 0 < u32cast (needRow.getD r 0)
    then false else true)

/-- `budget[r] += alloc[t][r] as i32` for every `r`. -/
def addBudget (budget : List Int) (row : List Nat) : List Int :=
  (List.range budget.length).map (fun r =>
    wrapI32 (budget.getD r 0 + u32cast (row.getD r 0)))

/-- Loop state of `check`: the working budget, the finish flags of the known
threads (indices beyond the list read as `true`, matching the `[true; 1024]`
backing array), and the `progress` flag. -/
structure BankSt where
  budget : List Int
  finish : List Bool
  progress : Bool
deriving DecidableEq, Repr

/-- One iteration of the `for t in 0..alloc.len()` body: skip finished
threads; when fulfillable, add the thread's allocation to the budget and mark
it finished (the source sets `finish[t]` inside the `for r` loop, so the mark
only happens when the budget is non-empty) and set `progress`. -/
def sweepStep (alloc need : List (List Nat)) (st : BankSt) (t : Nat) : BankSt :=
  if st.finish.getD t true then st
  else if fulfilB (need.getD t []) st.budget then
    { budget := addBudget st.budget (alloc.getD t []),
      finish := if st.budget.length = 0 then st.finish else st.finish.set t true,
      progress := true }
  else st

/-- One full sweep over the known threads. -/
def sweepAll (alloc need : List (List Nat)) (st : BankSt) : BankSt :=
  (List.range alloc.length).foldl (sweepStep alloc need) st

/-- The `while progress` loop, fueled; `alloc.len() + 1` sweeps suffice to
reach the fixed point whenever the budget is non-empty. -/
def checkLoop (alloc need : List (List Nat)) :
    Nat → List Int → List Bool → List Int × List Bool
  | 0, budget, finish => (budget, finish)
  | fuel + 1, budget, finish =>
    let st := sweepAll alloc need ⟨budget, finish, false⟩
    if st.progress then checkLoop alloc need fuel st.budget st.finish
    else (st.budget, st.finish)

/-- The body of `check` after the matrix growth: budget starts as a clone of
`avail`, the first `alloc.len()` finish flags start `false`; after the loop,
return `Some i` for the first `i` of the 1024-entry finish buffer that is
unfinished, else `None`. -/
def checkCore (avail : List Int) (alloc need : List (List Nat)) : Option Nat :=
  let bf := checkLoop alloc need (alloc.length + 1) avail
    (List.replicate alloc.length false)
  (List.range 1024).find? (fun i => !(bf.2.getD i true))

/-- `SyncRes::check`: when deadlock detection is disabled for the process,
return `None` before touching the monitor; otherwise grow the matrices and
run the safety loop.  Returns the verdict together with the (possibly grown)
monitor. -/
def SyncRes.check (detect : Bool) (m : ResMonitor) (tid : Nat) :
    Option Nat × ResMonitor :=
  if !detect then (none, m)
  else
    let m1 := m.grow tid
    (checkCore m1.avail m1.alloc m1.need, m1)

/-! ## Semaphore (`src/os/src/sync/semaphore.rs`) -/

/-- Semaphore state: `count : isize` plus the FIFO wait queue (tids). -/
structure SemState where
  count : Int
  wait_queue : List Nat
deriving DecidableEq, Repr

/-- Outcome of a `lock`/`down` call: returned immediately with a code, or
parked via `block_current_and_run_next` (in which case the call returns `0`
after wakeup). -/
inductive SyncOutcome where
  | ret (code : Int)
  | blocked
deriving DecidableEq, Repr

/-- `Semaphore::down`: decrement `count`; if the result is negative, mark
`need` and run `check` — on `Some` undo the decrement and return `DEAD_LOCK`,
on `None` append the calling thread to the wait queue and park; if the result
is non-negative, `acquire`. -/
def Semaphore.down (detect : Bool) (tid resid : Nat) (s : SemState)
    (m : ResMonitor) : SyncOutcome × SemState × ResMonitor :=
  let count1 := s.count - 1
  if count1 < 0 then
    let m1 := SyncRes.needOp m tid resid
    match SyncRes.check detect m1 tid with
    | (some _, m2) => (.ret DEAD_LOCK, { s with count := count1 + 1 }, m2)
    | (none, m2) =>
      (.blocked, { count := count1, wait_queue := s.wait_queue ++ [tid] }, m2)
  else
    (.ret 0, { s with count := count1 }, SyncRes.acquire m tid resid)

/-- `Semaphore::up`: increment `count`; call the monitor's `acquire` (not
`release`); if `count` is still `≤ 0`, pop the front of the wait queue and
wake that thread.  The third component is the woken tid, if any. -/
def Semaphore.up (tid resid : Nat) (s : SemState) (m : ResMonitor) :
    SemState × ResMonitor × Option Nat :=
  let count1 := s.count + 1
  let m1 := SyncRes.acquire m tid resid
  if count1 ≤ 0 then
    match s.wait_queue with
    | w :: rest => ({ count := count1, wait_queue := rest }, m1, some w)
    | [] => ({ count := count1, wait_queue := [] }, m1, none)
  else ({ s with count := count1 }, m1, none)

/-! ## Mutexes (`src/os/src/sync/mutex.rs`) -/

/-- Blocking-mutex state: `locked` plus the FIFO wait queue. -/
structure MutexBlockingState where
  locked : Bool
  wait_queue : List Nat
deriving DecidableEq, Repr

/-- `MutexBlocking::lock`: when the mutex is held, the caller is pushed onto
the wait queue *before* `need`/`check` run; a `Some` verdict returns
`DEAD_LOCK` with the caller still enqueued, a `None` verdict parks the
caller.  When free: set `locked` and `acquire`. -/
def MutexBlocking.lock (detect : Bool) (tid resid : Nat)
    (s : MutexBlockingState) (m : ResMonitor) :
    SyncOutcome × MutexBlockingState × ResMonitor :=
  if s.locked then
    let s1 := { s with wait_queue := s.wait_queue ++ [tid] }
    let m1 := SyncRes.needOp m tid resid
    match SyncRes.check detect m1 tid with
    | (some _, m2) => (.ret DEAD_LOCK, s1, m2)
    | (none, m2) => (.blocked, s1, m2)
  else
    (.ret 0, { s with locked := true }, SyncRes.acquire m tid resid)

/-- `MutexBlocking::unlock`: `assert!(locked)` (`none` models the assertion
failure); pop and wake the front waiter, keeping `locked` set (hand-off), or
clear `locked` when the queue is empty; `release` in either case.  The last
component is the woken tid. -/
def MutexBlocking.unlock (tid resid : Nat) (s : MutexBlockingState)
    (m : ResMonitor) : Option (MutexBlockingState × ResMonitor × Option Nat) :=
  if !s.locked then none
  else
    let p : MutexBlockingState × Option Nat :=
      match s.wait_queue with
      | w :: rest => ({ locked := s.locked, wait_queue := rest }, some w)
      | [] => ({ locked := false, wait_queue := [] }, none)
    some (p.1, SyncRes.release m tid resid, p.2)

/-- One iteration of the `loop` of `MutexSpin::lock` (between iterations the
caller has yielded and other threads may run, so the step granularity is the
faithful unit): on contention, `need` then `check` — `Some` returns
`DEAD_LOCK`, `None` yields and retries; when free, set `locked`, `acquire`
and return `0`. -/
inductive SpinStep where
  | acquired
  | deadlock
  | retry
deriving DecidableEq, Repr

def MutexSpin.lockStep (detect : Bool) (tid resid : Nat) (locked : Bool)
    (m : ResMonitor) : SpinStep × Bool × ResMonitor :=
  if locked then
    let m1 := SyncRes.needOp m tid resid
    match SyncRes.check detect m1 tid with
    | (some _, m2) => (.deadlock, locked, m2)
    | (none, m2) => (.retry, locked, m2)
  else
    (.acquired, true, SyncRes.acquire m tid resid)

/-- `MutexSpin::unlock`: the source clears `locked` and calls `release`
unconditionally — there is no assertion that the mutex is held. -/
def MutexSpin.unlock (tid resid : Nat) (locked : Bool) (m : ResMonitor) :
    Bool × ResMonitor :=
  (false, SyncRes.release m tid resid)

/-! ## fd-taking filesystem syscalls (`src/os/src/syscall/fs.rs`)

The file behind an fd is abstracted to its access flags plus an opaque
success result; the claims under verification only concern the bad-fd
control flow. -/

/-- An open file table slot: access flags of the `File` object. -/
structure FdFile where
  readable : Bool
  writable : Bool
deriving DecidableEq, Repr

/-- `sys_write`: fd out of range → `-1`; closed slot → `-1`; not writable →
`-1`; else the write result. -/
def sys_write (tbl : List (Option FdFile)) (fd : Nat) (writeRes : Int) : Int :=
  if tbl.length ≤ fd then -1
  else
    match tbl.getD fd none with
    | some f => if !f.writable then -1 else writeRes
    | none => -1

/-- `sys_read`: fd out of range → `-1`; closed slot → `-1`; not readable →
`-1`; else the read result. -/
def sys_read (tbl : List (Option FdFile)) (fd : Nat) (readRes : Int) : Int :=
  if tbl.length ≤ fd then -1
  else
    match tbl.getD fd none with
    | some f => if !f.readable then -1 else readRes
    | none => -1

/-- `sys_close`: fd out of range → `-1`; closed slot → `-1`; else take the
slot and return `0`. -/
def sys_close (tbl : List (Option FdFile)) (fd : Nat) :
    Int × List (Option FdFile) :=
  if tbl.length ≤ fd then (-1, tbl)
  else if (tbl.getD fd none).isNone then (-1, tbl)
  else (0, tbl.set fd none)

/-- `sys_fstat`: the source indexes `inner.fd_table[_fd]` with **no** bounds
check, so an out-of-range fd is a `Vec` index panic (`none`); a closed slot
returns `-1`; an open slot fills the stat buffer and returns `0` (the stat
payload is abstracted to `statRes`). -/
def sys_fstat (tbl : List (Option FdFile)) (fd : Nat) (statRes : Int) :
    Option Int :=
  if tbl.length ≤ fd then none
  else
    match tbl.getD fd none with
    | some _ => some statRes
    | none => some (-1)

/-! ## Specification-side notions for the Banker's safety test and the
monitor invariant -/

/-- Column total of the allocation matrix: `Σ_t alloc[t][r]` as an exact
integer. -/
def colTotal (alloc : List (List Nat)) (r : Nat) : Int :=
  (alloc.map (fun row => ((row.getD r 0 : Nat) : Int))).sum

/-- The monitor's column sum `avail[r] + Σ_t alloc[t][r]` (the quantity the
quiescent-point invariant equates with the declared capacity). -/
def ResMonitor.colSum (m : ResMonitor) (r : Nat) : Int :=
  m.avail.getD r 0 + colTotal m.alloc r

/-- A thread's needs are all covered by the work vector: every positive
demand is available. -/
def Covers (needRow : List Nat) (work : List Int) : Prop :=
  ∀ r < work.length, 0 < needRow.getD r 0 → (needRow.getD r 0 : Int) ≤ work.getD r 0

instance (needRow : List Nat) (work : List Int) : Decidable (Covers needRow work) := by
  unfold Covers; infer_instance

/-- Exact (non-wrapping) vector addition of an allocation row onto a work
vector. -/
def addRowZ (w : List Int) (row : List Nat) : List Int :=
  (List.range w.length).map (fun r => w.getD r 0 + ((row.getD r 0 : Nat) : Int))

/-- The work vector after finishing the threads of `sched` in order, with
exact arithmetic. -/
def workAfterZ (alloc : List (List Nat)) (avail : List Int) (sched : List Nat) :
    List Int :=
  sched.foldl (fun w t => addRowZ w (alloc.getD t [])) avail

/-- Validity of a Banker's schedule starting from work vector `w`: each
scheduled thread is a known one and its needs are covered by the work
accumulated so far. -/
def SchedFrom (alloc need : List (List Nat)) : List Int → List Nat → Prop
  | _, [] => True
  | w, t :: ts =>
    t < alloc.length ∧ Covers (need.getD t []) w ∧
    SchedFrom alloc need (addRowZ w (alloc.getD t [])) ts

/-- Banker's safety: some duplicate-free schedule finishes every known
thread. -/
def BankersSafe (avail : List Int) (alloc need : List (List Nat)) : Prop :=
  ∃ sched : List Nat, sched.Nodup ∧ SchedFrom alloc need avail sched ∧
    ∀ t < alloc.length, t ∈ sched

/-- Thread `t` can be finished by some valid schedule. -/
def Finishable (avail : List Int) (alloc need : List (List Nat)) (t : Nat) : Prop :=
  ∃ sched : List Nat, sched.Nodup ∧ SchedFrom alloc need avail sched ∧ t ∈ sched

/-- Sanity bounds under which the `u32`/`i32` arithmetic of `check` cannot
wrap and the 1024-entry finish buffer is not overrun: at most 1024 known
threads, at least one resource column, all matrix cells below `2^31`, and
every column's `avail + Σ alloc` inside the `i32` range. -/
def CheckBounded (avail : List Int) (alloc need : List (List Nat)) : Prop :=
  alloc.length ≤ 1024 ∧ 0 < avail.length ∧
  (∀ t < need.length, ∀ r < avail.length, mval need t r < 2 ^ 31) ∧
  (∀ t < alloc.length, ∀ r < avail.length, mval alloc t r < 2 ^ 31) ∧
  (∀ r < avail.length,
    -2 ^ 31 ≤ avail.getD r 0 ∧ avail.getD r 0 + colTotal alloc r < 2 ^ 31)

instance (avail : List Int) (alloc need : List (List Nat)) :
    Decidable (CheckBounded avail alloc need) := by
  unfold CheckBounded mval colTotal; infer_instance

/-- Loop invariant of the safety sweep: the finish flags mark exactly the
threads of some valid schedule `sched`, and the working budget is the exact
work vector accumulated along that schedule. -/
def BankInv (avail : List Int) (alloc need : List (List Nat))
    (budget : List Int) (finish : List Bool) : Prop :=
  ∃ sched : List Nat,
    sched.Nodup ∧ SchedFrom alloc need avail sched ∧
    (∀ t ∈ sched, t < alloc.length) ∧
    budget = workAfterZ alloc avail sched ∧
    budget.length = avail.length ∧
    finish.length = alloc.length ∧
    (∀ t < alloc.length, (finish.getD t true = true ↔ t ∈ sched))

/-- The fixed point reached by the `while progress` loop: no unfinished
thread passes the `fulfil` scan. -/
def FinalFix (need : List (List Nat)) (budget : List Int)
    (finish : List Bool) : Prop :=
  ∀ t < finish.length, finish.getD t true = false →
    fulfilB (need.getD t []) budget = false

/-- Number of still-unfinished threads among the first `n`. -/
def unfin (n : Nat) (finish : List Bool) : Nat :=
  ((Finset.range n).filter (fun t => finish.getD t true = false)).card

/-- The root-directory filesystem state of the concrete compaction scenario:
`create "x"; create "y"; create "z"` on a freshly formatted filesystem. -/
def scenarioXYZ : Option EasyFileSystem :=
  (Inode.create (mkFs 8 8) "x").bind (fun a =>
    (Inode.create a.2 "y").bind (fun b =>
      (Inode.create b.2 "z").map (fun c => c.2)))

/-- Concrete state for the last-unlink claim: the root directory (inode 0,
one directory data block, block 0) holds the single entry `"a" ↦ inode 1`,
a 512-byte file occupying data block 1. -/
def fsC1 : EasyFileSystem :=
  { inodeBitmap := [true, true, false],
    dataBitmap := [true, true, false],
    inodes := [⟨DiskInodeType.dir, 0, [⟨"a", 1⟩], [0]⟩,
               ⟨DiskInodeType.file, 512, [], [1]⟩, emptyFileInode] }

/-- Concrete monitor state of the two-mutex deadlock cycle: resources 0 and
1 (capacity 1 each, both taken), thread 0 holds resource 0 and needs 1,
thread 1 holds resource 1. -/
def mCycle : ResMonitor := ⟨[0, 0], [[1, 0], [0, 1]], [[0, 1], [0, 0]]⟩

/-- Concrete state for the unlinked-handle claim: the root references only
inode 1; inode 2's disk slot has no referencing entry. -/
def fsC10 : EasyFileSystem :=
  { inodeBitmap := [true, true, true],
    dataBitmap := [true, false, false],
    inodes := [⟨DiskInodeType.dir, 0, [⟨"a", 1⟩], [0]⟩,
               ⟨DiskInodeType.file, 0, [], []⟩,
               ⟨DiskInodeType.file, 0, [], []⟩] }

/-- Concrete state for the duplicate-name link claim: root entries
`"a" ↦ 1, "b" ↦ 2`. -/
def fsC9 : EasyFileSystem :=
  { inodeBitmap := [true, true, true],
    dataBitmap := [true, false],
    inodes := [⟨DiskInodeType.dir, 0, [⟨"a", 1⟩, ⟨"b", 2⟩], [0]⟩,
               ⟨DiskInodeType.file, 0, [], []⟩,
               ⟨DiskInodeType.file, 0, [], []⟩] }

/-- The state `vfs_link(fsC9, "a", "b")` produces: a second entry named
`"b"` has been appended. -/
def fsC9link : EasyFileSystem :=
  { inodeBitmap := [true, true, true],
    dataBitmap := [true, false],
    inodes := [⟨DiskInodeType.dir, 0, [⟨"a", 1⟩, ⟨"b", 2⟩, ⟨"b", 1⟩], [0]⟩,
               ⟨DiskInodeType.file, 0, [], []⟩,
               ⟨DiskInodeType.file, 0, [], []⟩] }

/-- The hand-off sequence on a fresh blocking mutex of capacity 1 (deadlock
detection off): thread 0 locks; thread 1 locks and blocks; thread 0 unlocks
— the head waiter is woken with `locked` left set and `release` is called;
thread 1, which returned from `lock` without ever calling `acquire`, then
unlocks, calling `release` a second time.  The result is the final monitor
state. -/
def handoffSeq : Option ResMonitor :=
  let p0 := ResMonitor.new.createRes 1
  let l1 := MutexBlocking.lock false 0 p0.2 ⟨false, []⟩ p0.1
  let l2 := MutexBlocking.lock false 1 p0.2 l1.2.1 l1.2.2
  (MutexBlocking.unlock 0 p0.2 l2.2.1 l2.2.2).bind (fun u1 =>
    (MutexBlocking.unlock 1 p0.2 u1.1 u1.2.1).map (fun u2 => u2.2.1))

/-- Well-formedness of the monitor matrices as every reachable state keeps
them: rows of one uniform length, no longer than the `avail` vector. -/
def MonOK (m : ResMonitor) : Prop :=
  (∀ row ∈ m.alloc, row.length = (m.alloc.headD []).length) ∧
  (∀ row ∈ m.need, row.length = (m.need.headD []).length) ∧
  (m.alloc.headD []).length ≤ m.avail.length ∧
  (m.need.headD []).length ≤ m.avail.length

instance (m : ResMonitor) : Decidable (MonOK m) := by
  unfold MonOK; infer_instance

/-- `avail` entries strictly inside the `i32` range, with one unit of slack
on both sides so that a single `+= 1` or `-= 1` cannot wrap. -/
def AvailSlack (m : ResMonitor) : Prop :=
  ∀ r < m.avail.length, -2 ^ 31 < m.avail.getD r 0 ∧ m.avail.getD r 0 < 2 ^ 31 - 1

instance (m : ResMonitor) : Decidable (AvailSlack m) := by
  unfold AvailSlack; infer_instance

/-- `alloc` cells with room for one more unit without `u32` wrap-around. -/
def AllocSlack (m : ResMonitor) : Prop :=
  ∀ t < m.alloc.length, ∀ r < m.avail.length, mval m.alloc t r < 2 ^ 32 - 1

instance (m : ResMonitor) : Decidable (AllocSlack m) := by
  unfold AllocSlack mval; infer_instance

/-! ## Helper lemmas -/

theorem getD_set_self {α : Type _} (l : List α) (i : Nat) (v d : α)
    (h : i < l.length) : (l.set i v).getD i d = v := by
  rw [List.getD_eq_getElem?_getD, List.getElem?_set_self h]
  rfl

theorem getD_set_ne {α : Type _} (l : List α) {i j : Nat} (v d : α)
    (h : i ≠ j) : (l.set i v).getD j d = l.getD j d := by
  rw [List.getD_eq_getElem?_getD, List.getElem?_set_ne h,
    ← List.getD_eq_getElem?_getD]

theorem allocDataN_inodes :
    ∀ (n : Nat) (fs : EasyFileSystem) (p : List Nat × EasyFileSystem),
      fs.allocDataN n = some p → p.2.inodes = fs.inodes := by
  intro n
  induction n with
  | zero =>
    intro fs p h
    simp only [EasyFileSystem.allocDataN, Option.some.injEq] at h
    rw [← h]
  | succ n ih =>
    intro fs p h
    simp only [EasyFileSystem.allocDataN] at h
    obtain ⟨q, hq, h2⟩ := Option.bind_eq_some.mp h
    obtain ⟨w, hw, rfl⟩ := Option.map_eq_some'.mp h2
    have h3 := ih q.2 w hw
    have h4 : q.2.inodes = fs.inodes := by
      unfold EasyFileSystem.allocData at hq
      obtain ⟨b, _, rfl⟩ := Option.map_eq_some'.mp hq
      rfl
    rw [h3, h4]

theorem dirAppend_entries {fs : EasyFileSystem} {name : String} {ino : Nat}
    {fs' : EasyFileSystem} (hne : fs.inodes ≠ [])
    (h : dirAppend fs name ino = some fs') :
    (rootDir fs').entries = (rootDir fs).entries ++ [⟨name, ino⟩] := by
  unfold dirAppend at h
  obtain ⟨p, hp, rfl⟩ := Option.map_eq_some'.mp h
  have hpi : p.2.inodes = fs.inodes := allocDataN_inodes _ _ _ hp
  show ((setInode p.2 0 _).inodes.getD 0 emptyFileInode).entries = _
  unfold setInode
  have hlen : 0 < p.2.inodes.length := by
    rw [hpi]
    exact List.length_pos.mpr hne
  rw [getD_set_self _ _ _ _ (by simpa using hlen)]

theorem getDiskInodePos_inj {a b : Nat} (h : getDiskInodePos a = getDiskInodePos b) :
    a = b := by
  unfold getDiskInodePos at h
  have h1 : a / 4 = b / 4 := by
    have := congrArg Prod.fst h
    simpa [INODE_AREA_START] using this
  have h2 : a % 4 * 128 = b % 4 * 128 := congrArg Prod.snd h
  omega

theorem findDentryAux_spec (name : String) (dflt : DirEntry) :
    ∀ (es : List DirEntry) (k idx : Nat) (dent : DirEntry),
      findDentryAux name k es = some (idx, dent) →
      k ≤ idx ∧ idx - k < es.length ∧ es.getD (idx - k) dflt = dent ∧
        dent.name = name := by
  intro es
  induction es with
  | nil => intro k idx dent h; simp [findDentryAux] at h
  | cons e es ih =>
    intro k idx dent h
    unfold findDentryAux at h
    by_cases he : e.name = name
    · rw [if_pos (by simpa using he)] at h
      simp only [Option.some.injEq, Prod.mk.injEq] at h
      obtain ⟨rfl, rfl⟩ := h
      simp [he]
    · rw [if_neg (by simpa using he)] at h
      obtain ⟨hk, hlt, hget, hname⟩ := ih (k + 1) idx dent h
      refine ⟨by omega, by simp; omega, ?_, hname⟩
      have hik : idx - k = (idx - (k + 1)) + 1 := by omega
      rw [hik]
      simpa using hget

theorem find_dentry_spec {name : String} {d : DInode} {idx : Nat}
    {dent : DirEntry} (h : find_dentry name d = some (idx, dent)) :
    idx < d.entries.length ∧ d.entries.getD idx ⟨"", 0⟩ = dent ∧
      dent.name = name := by
  obtain ⟨-, h2, h3, h4⟩ := findDentryAux_spec name ⟨"", 0⟩ d.entries 0 idx dent h
  exact ⟨by simpa using h2, by simpa using h3, h4⟩

theorem deallocData_inodes (fs : EasyFileSystem) (b : Nat) :
    (fs.deallocData b).inodes = fs.inodes := rfl

theorem foldl_deallocData_inodes :
    ∀ (l : List Nat) (fs : EasyFileSystem),
      (l.foldl EasyFileSystem.deallocData fs).inodes = fs.inodes := by
  intro l
  induction l with
  | nil => intro fs; rfl
  | cons b l ih => intro fs; simpa [deallocData_inodes] using ih (fs.deallocData b)

theorem rootDir_foldl_deallocData (l : List Nat) (fs : EasyFileSystem) :
    rootDir (l.foldl EasyFileSystem.deallocData fs) = rootDir fs := by
  unfold rootDir
  rw [foldl_deallocData_inodes]

theorem clearStep_entries (fs : EasyFileSystem) (k : Nat) :
    (rootDir (setInode fs k
      { fs.inodes.getD k emptyFileInode with size := 0, dataBlocks := [] })).entries
      = (rootDir fs).entries := by
  unfold rootDir setInode
  by_cases hk : k = 0
  · subst hk
    by_cases hl : fs.inodes = []
    · simp [hl]
    · rw [getD_set_self _ _ _ _ (List.length_pos.mpr hl)]
  · rw [getD_set_ne _ _ _ hk]

theorem clearStep_inodes_ne (fs : EasyFileSystem) (k : Nat) (d : DInode)
    (hne : fs.inodes ≠ []) : (setInode fs k d).inodes ≠ [] := by
  unfold setInode
  intro hc
  exact hne (List.eq_nil_of_length_eq_zero (by
    have := congrArg List.length hc
    simpa using this))

theorem rootDir_setInode_zero (fs : EasyFileSystem) (d : DInode)
    (hne : fs.inodes ≠ []) : rootDir (setInode fs 0 d) = d := by
  unfold rootDir setInode
  exact getD_set_self _ _ _ _ (List.length_pos.mpr hne)

theorem vfs_unlink_found (fs : EasyFileSystem) (name : String) (idx : Nat)
    (dent : DirEntry) (hne : fs.inodes ≠ [])
    (h : find_dentry name (rootDir fs) = some (idx, dent)) :
    (Inode.vfs_unlink fs name).1 = 0 ∧
    (rootDir (Inode.vfs_unlink fs name).2).entries =
      (if idx < (rootDir fs).entries.length - 1 then
        (rootDir fs).entries.set idx
          ((rootDir fs).entries.getD ((rootDir fs).entries.length - 1) ⟨"", 0⟩)
       else (rootDir fs).entries).take ((rootDir fs).entries.length - 1) := by
  unfold Inode.vfs_unlink
  rw [h]
  simp only [rootDir_foldl_deallocData]
  constructor
  · trivial
  · by_cases hl : ((find_inode_by_id dent.inode_id (rootDir fs)).length == 1) = true
    · simp only [if_pos hl]
      rw [rootDir_setInode_zero _ _ (clearStep_inodes_ne fs dent.inode_id _ hne)]
      simp only [clearStep_entries]
    · simp only [if_neg hl]
      rw [rootDir_setInode_zero _ _ hne]

theorem wrapI32_eq_self {x : Int} (h1 : -2 ^ 31 ≤ x) (h2 : x < 2 ^ 31) :
    wrapI32 x = x := by
  unfold wrapI32
  omega

theorem wrapU32_eq_self {n : Nat} (h : n < 2 ^ 32) : wrapU32 n = n :=
  Nat.mod_eq_of_lt h

theorem wrapU32_sub_one {c : Nat} (h1 : 0 < c) (h2 : c < 2 ^ 32) :
    wrapU32 (c + 2 ^ 32 - 1) = c - 1 := by
  unfold wrapU32
  omega

theorem getD_append_replicate_self {α : Type _} (l : List α) (k r : Nat) (d : α) :
    (l ++ List.replicate k d).getD r d = l.getD r d := by
  rcases Nat.lt_or_ge r l.length with h | h
  · rw [List.getD_eq_getElem?_getD, List.getElem?_append_left h,
      ← List.getD_eq_getElem?_getD]
  · have hR : l.getD r d = d := List.getD_eq_default _ _ h
    rw [hR, List.getD_eq_getElem?_getD, List.getElem?_append_right h,
      List.getElem?_replicate]
    by_cases hk : r - l.length < k <;> simp [hk]

theorem vecResize_eq_append {α : Type _} (l : List α) {n : Nat} (v : α)
    (h : l.length ≤ n) :
    vecResize l n v = l ++ List.replicate (n - l.length) v := by
  unfold vecResize
  rw [List.take_of_length_le h]

theorem getD_vecResize_self {α : Type _} (l : List α) {n : Nat} (r : Nat) (v : α)
    (h : l.length ≤ n) : (vecResize l n v).getD r v = l.getD r v := by
  rw [vecResize_eq_append l v h, getD_append_replicate_self]

theorem length_vecResize {α : Type _} (l : List α) {n : Nat} (v : α)
    (h : l.length ≤ n) : (vecResize l n v).length = n := by
  rw [vecResize_eq_append l v h]
  simp
  omega

theorem getD_in_bounds_mem {α : Type _} (l : List α) {t : Nat} (d : α)
    (ht : t < l.length) : l.getD t d ∈ l := by
  have h1 : l.getD t d = l[t] := by
    rw [List.getD_eq_getElem?_getD, List.getElem?_eq_getElem ht]
    rfl
  rw [h1]
  exact List.getElem_mem ht

theorem mval_append_zrows (mat : List (List Nat)) (k n t r : Nat) :
    mval (mat ++ List.replicate k (List.replicate n 0)) t r = mval mat t r := by
  unfold mval
  rcases Nat.lt_or_ge t mat.length with h | h
  · have hrow : (mat ++ List.replicate k (List.replicate n 0)).getD t [] =
        mat.getD t [] := by
      rw [List.getD_eq_getElem?_getD, List.getElem?_append_left h,
        ← List.getD_eq_getElem?_getD]
    rw [hrow]
  · have hR : mat.getD t [] = [] := List.getD_eq_default _ _ h
    have hrow : (mat ++ List.replicate k (List.replicate n 0)).getD t [] =
        (if t - mat.length < k then List.replicate n 0 else []) := by
      rw [List.getD_eq_getElem?_getD, List.getElem?_append_right h,
        List.getElem?_replicate]
      by_cases hk : t - mat.length < k <;> simp [hk]
    rw [hrow, hR]
    by_cases hk : t - mat.length < k <;> simp [hk]

theorem mval_map_vecResize (mat : List (List Nat)) (n : Nat)
    (h : ∀ row ∈ mat, row.length ≤ n) (t r : Nat) :
    mval (mat.map (fun row => vecResize row n 0)) t r = mval mat t r := by
  unfold mval
  rcases Nat.lt_or_ge t mat.length with ht | ht
  · have h1 : (mat.map (fun row => vecResize row n 0)).getD t [] =
        vecResize (mat.getD t []) n 0 := by
      rw [List.getD_eq_getElem?_getD, List.getElem?_map,
        List.getElem?_eq_getElem ht]
      simp [List.getD_eq_getElem?_getD, List.getElem?_eq_getElem ht]
    rw [h1]
    exact getD_vecResize_self _ r 0 (h _ (getD_in_bounds_mem mat [] ht))
  · have h1 : (mat.map (fun row => vecResize row n 0)).getD t [] = [] :=
      List.getD_eq_default _ _ (by simpa using ht)
    have h2 : mat.getD t [] = [] := List.getD_eq_default _ _ ht
    rw [h1, h2]

theorem mval_growMat (mat : List (List Nat)) (tid n : Nat)
    (h : ∀ row ∈ mat, row.length ≤ n) (t r : Nat) :
    mval (growMat mat tid n) t r = mval mat t r := by
  unfold growMat
  by_cases h1 : mat.length < tid + 1
  · rw [if_pos h1]
    rw [vecResize_eq_append _ _ (Nat.le_of_lt h1)]
    have hrows : ∀ row ∈ mat ++ List.replicate (tid + 1 - mat.length)
        (List.replicate n 0), row.length ≤ n := by
      intro row hrow
      rcases List.mem_append.mp hrow with hm | hm
      · exact h row hm
      · rw [List.eq_of_mem_replicate hm]
        simp
    by_cases h2 : ((mat ++ List.replicate (tid + 1 - mat.length)
        (List.replicate n 0)).headD []).length < n
    · rw [if_pos h2, mval_map_vecResize _ _ hrows, mval_append_zrows]
    · rw [if_neg h2, mval_append_zrows]
  · rw [if_neg h1]
    by_cases h2 : ((mat.headD []).length) < n
    · rw [if_pos h2, mval_map_vecResize _ _ h]
    · rw [if_neg h2]

theorem length_growMat_ge (mat : List (List Nat)) (tid n : Nat) :
    tid < (growMat mat tid n).length := by
  unfold growMat
  by_cases h1 : mat.length < tid + 1
  · rw [if_pos h1, vecResize_eq_append _ _ (Nat.le_of_lt h1)]
    by_cases h2 : (((mat ++ List.replicate (tid + 1 - mat.length)
        (List.replicate n 0)).headD []).length) < n
    · rw [if_pos h2]
      simp
      omega
    · rw [if_neg h2]
      simp
      omega
  · rw [if_neg h1]
    by_cases h2 : ((mat.headD []).length) < n
    · rw [if_pos h2]
      simp
      omega
    · rw [if_neg h2]
      omega

theorem length_growMat_eq (mat : List (List Nat)) (tid n : Nat) :
    (growMat mat tid n).length = max mat.length (tid + 1) := by
  unfold growMat
  by_cases h1 : mat.length < tid + 1
  · rw [if_pos h1, vecResize_eq_append _ _ (Nat.le_of_lt h1)]
    by_cases h2 : (((mat ++ List.replicate (tid + 1 - mat.length)
        (List.replicate n 0)).headD []).length) < n
    · rw [if_pos h2]
      simp
      omega
    · rw [if_neg h2]
      simp
      omega
  · rw [if_neg h1]
    by_cases h2 : ((mat.headD []).length) < n
    · rw [if_pos h2]
      simp
      omega
    · rw [if_neg h2]
      omega

theorem headD_length_of_uniform (mat : List (List Nat))
    (hu : ∀ row ∈ mat, row.length = (mat.headD []).length) :
    ∀ row ∈ mat, row.length = (mat.headD []).length := hu

theorem growMat_rows_full (mat : List (List Nat)) (tid n : Nat)
    (hu : ∀ row ∈ mat, row.length = (mat.headD []).length)
    (hle : (mat.headD []).length ≤ n) :
    ∀ row ∈ growMat mat tid n, row.length = n := by
  unfold growMat
  by_cases h1 : mat.length < tid + 1
  · rw [if_pos h1, vecResize_eq_append _ _ (Nat.le_of_lt h1)]
    have hm1rows : ∀ row ∈ mat ++ List.replicate (tid + 1 - mat.length)
        (List.replicate n 0), row.length = (mat.headD []).length ∨
        row.length = n := by
      intro row hrow
      rcases List.mem_append.mp hrow with hm | hm
      · exact Or.inl (hu row hm)
      · right
        rw [List.eq_of_mem_replicate hm]
        simp
    by_cases h2 : (((mat ++ List.replicate (tid + 1 - mat.length)
        (List.replicate n 0)).headD []).length) < n
    · rw [if_pos h2]
      intro row hrow
      obtain ⟨row0, hrow0, rfl⟩ := List.mem_map.mp hrow
      have hlen : row0.length ≤ n := by
        rcases hm1rows row0 hrow0 with hl | hl <;> omega
      exact length_vecResize _ _ hlen
    · rw [if_neg h2]
      intro row hrow
      by_cases hmat : mat = []
      · subst hmat
        rw [List.nil_append] at hrow
        rw [List.eq_of_mem_replicate hrow]
        simp
      · have hh : (mat ++ List.replicate (tid + 1 - mat.length)
            (List.replicate n 0)).headD [] = mat.headD [] := by
          rcases mat with - | ⟨h0, mt⟩
          · exact absurd rfl hmat
          · rfl
        rw [hh] at h2
        rcases hm1rows row hrow with hl | hl
        · omega
        · exact hl
  · rw [if_neg h1]
    by_cases h2 : ((mat.headD []).length) < n
    · rw [if_pos h2]
      intro row hrow
      obtain ⟨row0, hrow0, rfl⟩ := List.mem_map.mp hrow
      exact length_vecResize _ _ (by have := hu row0 hrow0; omega)
    · rw [if_neg h2]
      intro row hrow
      have := hu row hrow
      omega

theorem colTotal_append (a b : List (List Nat)) (r : Nat) :
    colTotal (a ++ b) r = colTotal a r + colTotal b r := by
  unfold colTotal
  rw [List.map_append, List.sum_append]

theorem colTotal_zrows (k n r : Nat) :
    colTotal (List.replicate k (List.replicate n 0)) r = 0 := by
  unfold colTotal
  rw [List.map_replicate]
  have hz : (((List.replicate n 0).getD r 0 : Nat) : Int) = 0 := by
    rw [List.getD_eq_getElem?_getD, List.getElem?_replicate]
    by_cases hr : r < n <;> simp [hr]
  rw [hz, List.sum_replicate]
  simp

theorem colTotal_map_vecResize (mat : List (List Nat)) (n : Nat)
    (h : ∀ row ∈ mat, row.length ≤ n) (r : Nat) :
    colTotal (mat.map (fun row => vecResize row n 0)) r = colTotal mat r := by
  unfold colTotal
  rw [List.map_map]
  apply congrArg List.sum
  apply List.map_congr_left
  intro row hrow
  simp only [Function.comp]
  rw [getD_vecResize_self row r 0 (h row hrow)]

theorem colTotal_growMat (mat : List (List Nat)) (tid n : Nat)
    (h : ∀ row ∈ mat, row.length ≤ n) (r : Nat) :
    colTotal (growMat mat tid n) r = colTotal mat r := by
  unfold growMat
  by_cases h1 : mat.length < tid + 1
  · rw [if_pos h1, vecResize_eq_append _ _ (Nat.le_of_lt h1)]
    have hrows : ∀ row ∈ mat ++ List.replicate (tid + 1 - mat.length)
        (List.replicate n 0), row.length ≤ n := by
      intro row hrow
      rcases List.mem_append.mp hrow with hm | hm
      · exact h row hm
      · rw [List.eq_of_mem_replicate hm]
        simp
    by_cases h2 : (((mat ++ List.replicate (tid + 1 - mat.length)
        (List.replicate n 0)).headD []).length) < n
    · rw [if_pos h2, colTotal_map_vecResize _ _ hrows, colTotal_append,
        colTotal_zrows]
      simp
    · rw [if_neg h2, colTotal_append, colTotal_zrows]
      simp
  · rw [if_neg h1]
    by_cases h2 : ((mat.headD []).length) < n
    · rw [if_pos h2, colTotal_map_vecResize _ _ h]
    · rw [if_neg h2]

theorem sum_set_int :
    ∀ (l : List Int) (i : Nat) (v : Int), i < l.length →
      (l.set i v).sum = l.sum - l.getD i 0 + v := by
  intro l
  induction l with
  | nil => intro i v h; simp at h
  | cons a l ih =>
    intro i v h
    cases i with
    | zero =>
      simp [List.set]
      ring
    | succ i =>
      simp only [List.set, List.sum_cons]
      rw [ih i v (by simpa using h)]
      have hD : (a :: l).getD (i + 1) 0 = l.getD i 0 := by
        simp [List.getD_eq_getElem?_getD]
      rw [hD]
      ring

theorem getD_map_col (mat : List (List Nat)) (r : Nat) {t : Nat}
    (ht : t < mat.length) :
    (mat.map (fun row => ((row.getD r 0 : Nat) : Int))).getD t 0 =
      ((mat.getD t []).getD r 0 : Nat) := by
  rw [List.getD_eq_getElem?_getD, List.getElem?_map, List.getElem?_eq_getElem ht]
  simp [List.getD_eq_getElem?_getD, List.getElem?_eq_getElem ht]

theorem colTotal_setCell_same (mat : List (List Nat)) (t r v : Nat)
    (ht : t < mat.length) (hr : r < (mat.getD t []).length) :
    colTotal (setCell mat t r v) r = colTotal mat r - mval mat t r + v := by
  unfold colTotal setCell mval
  rw [List.map_set, sum_set_int _ _ _ (by simpa using ht)]
  rw [getD_map_col mat r ht, getD_set_self _ _ _ _ hr]

theorem colTotal_setCell_ne (mat : List (List Nat)) (t r v r' : Nat)
    (hner : r ≠ r') :
    colTotal (setCell mat t r v) r' = colTotal mat r' := by
  unfold colTotal setCell
  rcases Nat.lt_or_ge t mat.length with ht | ht
  · rw [List.map_set, sum_set_int _ _ _ (by simpa using ht)]
    rw [getD_map_col mat r' ht, getD_set_ne _ _ _ hner]
    ring
  · rw [List.set_eq_of_length_le ht]

theorem growMat_rows_le (mat : List (List Nat)) (tid n : Nat)
    (h : ∀ row ∈ mat, row.length ≤ n) :
    ∀ row ∈ growMat mat tid n, row.length ≤ n := by
  unfold growMat
  by_cases h1 : mat.length < tid + 1
  · rw [if_pos h1, vecResize_eq_append _ _ (Nat.le_of_lt h1)]
    have hrows : ∀ row ∈ mat ++ List.replicate (tid + 1 - mat.length)
        (List.replicate n 0), row.length ≤ n := by
      intro row hrow
      rcases List.mem_append.mp hrow with hm | hm
      · exact h row hm
      · rw [List.eq_of_mem_replicate hm]
        simp
    by_cases h2 : (((mat ++ List.replicate (tid + 1 - mat.length)
        (List.replicate n 0)).headD []).length) < n
    · rw [if_pos h2]
      intro row hrow
      obtain ⟨row0, hrow0, rfl⟩ := List.mem_map.mp hrow
      rw [length_vecResize _ _ (hrows row0 hrow0)]
    · rw [if_neg h2]
      exact hrows
  · rw [if_neg h1]
    by_cases h2 : ((mat.headD []).length) < n
    · rw [if_pos h2]
      intro row hrow
      obtain ⟨row0, hrow0, rfl⟩ := List.mem_map.mp hrow
      rw [length_vecResize _ _ (h row0 hrow0)]
    · rw [if_neg h2]
      exact h

theorem colSum_ignores_need (mm : ResMonitor) (x : List (List Nat)) (r : Nat) :
    ResMonitor.colSum { mm with need := x } r = mm.colSum r := rfl

theorem grow_avail (m : ResMonitor) (tid : Nat) : (m.grow tid).avail = m.avail := rfl

theorem colSum_grow (m : ResMonitor) (tid : Nat)
    (halloc : ∀ row ∈ m.alloc, row.length ≤ m.avail.length) (r : Nat) :
    (m.grow tid).colSum r = m.colSum r := by
  unfold ResMonitor.colSum ResMonitor.grow
  rw [colTotal_growMat _ _ _ halloc]

theorem colSum_needOp (m : ResMonitor) (tid resid : Nat)
    (halloc : ∀ row ∈ m.alloc, row.length ≤ m.avail.length) (r : Nat) :
    (SyncRes.needOp m tid resid).colSum r = m.colSum r := by
  unfold SyncRes.needOp
  by_cases hc : 0 < mval (m.grow tid).need tid resid
  · rw [if_pos hc]
    exact colSum_grow m tid halloc r
  · rw [if_neg hc]
    rw [colSum_ignores_need]
    exact colSum_grow m tid halloc r

theorem colSum_check (detect : Bool) (m : ResMonitor) (tid : Nat)
    (halloc : ∀ row ∈ m.alloc, row.length ≤ m.avail.length) (r : Nat) :
    (SyncRes.check detect m tid).2.colSum r = m.colSum r := by
  unfold SyncRes.check
  by_cases hd : !detect
  · rw [if_pos hd]
  · rw [if_neg hd]
    exact colSum_grow m tid halloc r

theorem rows_le_of_MonOK (m : ResMonitor) (hOK : MonOK m) :
    ∀ row ∈ m.alloc, row.length ≤ m.avail.length := by
  intro row hrow
  rw [hOK.1 row hrow]
  exact hOK.2.2.1

theorem needOp_avail (m : ResMonitor) (tid resid : Nat) :
    (SyncRes.needOp m tid resid).avail = m.avail := by
  unfold SyncRes.needOp
  by_cases hc : 0 < mval (m.grow tid).need tid resid
  · rw [if_pos hc]
    rfl
  · rw [if_neg hc]
    rfl

theorem needOp_alloc (m : ResMonitor) (tid resid : Nat) :
    (SyncRes.needOp m tid resid).alloc = (m.grow tid).alloc := by
  unfold SyncRes.needOp
  by_cases hc : 0 < mval (m.grow tid).need tid resid
  · rw [if_pos hc]
  · rw [if_neg hc]

theorem needOp_rows_le (m : ResMonitor) (tid resid : Nat)
    (halloc : ∀ row ∈ m.alloc, row.length ≤ m.avail.length) :
    ∀ row ∈ (SyncRes.needOp m tid resid).alloc,
      row.length ≤ (SyncRes.needOp m tid resid).avail.length := by
  rw [needOp_avail, needOp_alloc]
  exact growMat_rows_le _ _ _ halloc

theorem colSum_if_need_update (P : Prop) [Decidable P] (m2 : ResMonitor)
    (x : List (List Nat)) (r : Nat) :
    (if P then { m2 with need := x } else m2).colSum r = m2.colSum r := by
  by_cases h : P
  · rw [if_pos h]
    rfl
  · rw [if_neg h]

theorem colSum_avail_alloc_update (m1 : ResMonitor) (resid tid : Nat)
    (x : Int) (v : Nat) (hres : resid < m1.avail.length)
    (ht : tid < m1.alloc.length) (hrow : resid < (m1.alloc.getD tid []).length)
    (r : Nat) :
    ResMonitor.colSum
        { m1 with avail := m1.avail.set resid x,
                  alloc := setCell m1.alloc tid resid v } r =
      if r = resid then
        x + (colTotal m1.alloc resid - mval m1.alloc tid resid + v)
      else m1.colSum r := by
  by_cases hr : r = resid
  · subst hr
    rw [if_pos rfl]
    unfold ResMonitor.colSum
    show (m1.avail.set r x).getD r 0 + colTotal (setCell m1.alloc tid r v) r = _
    rw [getD_set_self _ _ _ _ hres, colTotal_setCell_same _ _ _ _ ht hrow]
  · rw [if_neg hr]
    unfold ResMonitor.colSum
    show (m1.avail.set resid x).getD r 0 + colTotal (setCell m1.alloc tid resid v) r = _
    rw [getD_set_ne _ _ _ (fun hh => hr hh.symm),
      colTotal_setCell_ne _ _ _ _ _ (fun hh => hr hh.symm)]

theorem colSum_acquire (m : ResMonitor) (tid resid : Nat)
    (hOK : MonOK m) (hres : resid < m.avail.length)
    (hav1 : -2 ^ 31 < m.avail.getD resid 0)
    (hav2 : m.avail.getD resid 0 < 2 ^ 31 - 1)
    (hal : mval m.alloc tid resid < 2 ^ 32 - 1) (r : Nat) :
    (SyncRes.acquire m tid resid).colSum r = m.colSum r := by
  have halloc := rows_le_of_MonOK m hOK
  have hmv : mval (m.grow tid).alloc tid resid = mval m.alloc tid resid :=
    mval_growMat _ _ _ halloc tid resid
  have htlen : tid < (m.grow tid).alloc.length := length_growMat_ge _ _ _
  have hrowfull : ((m.grow tid).alloc.getD tid []).length = m.avail.length := by
    have hfull := growMat_rows_full m.alloc tid m.avail.length hOK.1 hOK.2.2.1
    exact hfull _ (getD_in_bounds_mem _ [] htlen)
  unfold SyncRes.acquire
  rw [colSum_if_need_update]
  rw [colSum_avail_alloc_update (m.grow tid) resid tid _ _ hres htlen (by omega) r]
  have hgrow := colSum_grow m tid halloc
  have hct : colTotal (m.grow tid).alloc resid = colTotal m.alloc resid :=
    colTotal_growMat _ _ _ halloc resid
  by_cases hr : r = resid
  · subst hr
    rw [if_pos rfl]
    have hwi : wrapI32 ((m.grow tid).avail.getD r 0 - 1) =
        m.avail.getD r 0 - 1 := by
      show wrapI32 (m.avail.getD r 0 - 1) = m.avail.getD r 0 - 1
      exact wrapI32_eq_self (by omega) (by omega)
    have hwu : wrapU32 (mval (m.grow tid).alloc tid r + 1) =
        mval m.alloc tid r + 1 := by
      rw [hmv]
      exact wrapU32_eq_self (by omega)
    rw [hwi, hwu, hmv, hct]
    unfold ResMonitor.colSum
    push_cast
    ring
  · rw [if_neg hr]
    exact hgrow r

theorem colSum_release (m : ResMonitor) (tid resid : Nat)
    (ht : tid < m.alloc.length) (hrow : resid < (m.alloc.getD tid []).length)
    (hres : resid < m.avail.length)
    (hav1 : -2 ^ 31 ≤ m.avail.getD resid 0)
    (hav2 : m.avail.getD resid 0 < 2 ^ 31 - 1)
    (hpos : 0 < mval m.alloc tid resid)
    (hbelow : mval m.alloc tid resid < 2 ^ 32) (r : Nat) :
    (SyncRes.release m tid resid).colSum r = m.colSum r := by
  unfold SyncRes.release
  rw [colSum_avail_alloc_update _ _ _ _ _ hres ht hrow r]
  by_cases hr : r = resid
  · subst hr
    rw [if_pos rfl]
    have hwi : wrapI32 (m.avail.getD r 0 + 1) = m.avail.getD r 0 + 1 :=
      wrapI32_eq_self (by omega) (by omega)
    have hwu : wrapU32 (mval m.alloc tid r + 2 ^ 32 - 1) =
        mval m.alloc tid r - 1 :=
      wrapU32_sub_one hpos hbelow
    rw [hwi, hwu]
    unfold ResMonitor.colSum
    have hcast : ((mval m.alloc tid r - 1 : Nat) : Int) =
        (mval m.alloc tid r : Int) - 1 := by
      omega
    rw [hcast]
    ring
  · rw [if_neg hr]

theorem allocSlack_cell (m : ResMonitor) (hAl : AllocSlack m) (resid : Nat)
    (hres : resid < m.avail.length) (tid : Nat) :
    mval m.alloc tid resid < 2 ^ 32 - 1 := by
  by_cases ht : tid < m.alloc.length
  · exact hAl tid ht resid hres
  · unfold mval
    have hrow0 : m.alloc.getD tid [] = [] := List.getD_eq_default _ _ (by omega)
    rw [hrow0]
    simp

theorem colTotal_zero_of_rows_le (mat : List (List Nat)) (R : Nat)
    (h : ∀ row ∈ mat, row.length ≤ R) : colTotal mat R = 0 := by
  unfold colTotal
  apply List.sum_eq_zero
  intro x hx
  obtain ⟨row, hrow, rfl⟩ := List.mem_map.mp hx
  rw [List.getD_eq_default _ _ (h row hrow)]
  rfl

theorem u32cast_small {k : Nat} (h : k < 2 ^ 31) : u32cast k = (k : Int) := by
  unfold u32cast
  rw [if_pos h]

theorem getD_range_map {β : Type _} (n : Nat) (f : Nat → β) (r : Nat) (d : β) :
    ((List.range n).map f).getD r d = if r < n then f r else d := by
  rw [List.getD_eq_getElem?_getD, List.getElem?_map]
  by_cases hr : r < n
  · rw [List.getElem?_range hr]
    simp [hr]
  · rw [List.getElem?_eq_none (by simpa using hr)]
    simp [hr]

theorem length_addRowZ (w : List Int) (row : List Nat) :
    (addRowZ w row).length = w.length := by
  unfold addRowZ
  simp

theorem getD_addRowZ (w : List Int) (row : List Nat) {r : Nat}
    (hr : r < w.length) :
    (addRowZ w row).getD r 0 = w.getD r 0 + ((row.getD r 0 : Nat) : Int) := by
  unfold addRowZ
  rw [getD_range_map, if_pos hr]

theorem length_addBudget (w : List Int) (row : List Nat) :
    (addBudget w row).length = w.length := by
  unfold addBudget
  simp

theorem length_workAfterZ (alloc : List (List Nat)) :
    ∀ (sched : List Nat) (w : List Int),
      (workAfterZ alloc w sched).length = w.length := by
  intro sched
  induction sched with
  | nil => intro w; rfl
  | cons t ts ih =>
    intro w
    show (workAfterZ alloc (addRowZ w (alloc.getD t [])) ts).length = _
    rw [ih, length_addRowZ]

theorem workAfterZ_append (alloc : List (List Nat)) (w : List Int)
    (sched : List Nat) (t : Nat) :
    workAfterZ alloc w (sched ++ [t]) =
      addRowZ (workAfterZ alloc w sched) (alloc.getD t []) := by
  unfold workAfterZ
  rw [List.foldl_append]
  rfl

theorem getD_workAfterZ (alloc : List (List Nat)) :
    ∀ (sched : List Nat) (w : List Int) (r : Nat), r < w.length →
      (workAfterZ alloc w sched).getD r 0 =
        w.getD r 0 +
          (sched.map (fun t => ((mval alloc t r : Nat) : Int))).sum := by
  intro sched
  induction sched with
  | nil => intro w r hr; simp [workAfterZ]
  | cons t ts ih =>
    intro w r hr
    show (workAfterZ alloc (addRowZ w (alloc.getD t [])) ts).getD r 0 = _
    rw [ih _ r (by rw [length_addRowZ]; exact hr), getD_addRowZ _ _ hr]
    show w.getD r 0 + (mval alloc t r : Int) + _ = _
    simp
    ring

theorem colTotal_eq_sum_range (mat : List (List Nat)) (r : Nat) :
    colTotal mat r = ∑ t ∈ Finset.range mat.length, ((mval mat t r : Nat) : Int) := by
  induction mat with
  | nil => simp [colTotal]
  | cons row mat ih =>
    show ((row :: mat).map (fun row => ((row.getD r 0 : Nat) : Int))).sum = _
    rw [List.map_cons, List.sum_cons]
    rw [show ((row :: mat).length) = mat.length + 1 from rfl]
    rw [Finset.sum_range_succ']
    have h0 : ((mval (row :: mat) 0 r : Nat) : Int) = ((row.getD r 0 : Nat) : Int) := rfl
    have hs : ∀ t, ((mval (row :: mat) (t + 1) r : Nat) : Int) =
        ((mval mat t r : Nat) : Int) := fun t => rfl
    rw [h0]
    have hcong : ∑ t ∈ Finset.range mat.length,
        ((mval (row :: mat) (t + 1) r : Nat) : Int) =
        ∑ t ∈ Finset.range mat.length, ((mval mat t r : Nat) : Int) :=
      Finset.sum_congr rfl (fun t _ => hs t)
    rw [hcong]
    have ih2 : (List.map (fun row => ((row.getD r 0 : Nat) : Int)) mat).sum =
        ∑ t ∈ Finset.range mat.length, ((mval mat t r : Nat) : Int) := ih
    rw [ih2]
    ring

theorem sum_sched_le_colTotal (alloc : List (List Nat)) (r : Nat)
    (sched : List Nat) (hnd : sched.Nodup)
    (hlt : ∀ t ∈ sched, t < alloc.length) :
    (sched.map (fun t => ((mval alloc t r : Nat) : Int))).sum ≤
      colTotal alloc r := by
  rw [colTotal_eq_sum_range]
  rw [← List.sum_toFinset _ hnd]
  apply Finset.sum_le_sum_of_subset_of_nonneg
  · intro t ht
    rw [List.mem_toFinset] at ht
    exact Finset.mem_range.mpr (hlt t ht)
  · intro t _ _
    positivity

theorem ite_false_true {c : Prop} [Decidable c] :
    (if c then false else true) = true ↔ ¬c := by
  by_cases h : c <;> simp [h]

theorem fulfil_iff_covers (needRow : List Nat) (budget : List Int)
    (hneed : ∀ r < budget.length, needRow.getD r 0 < 2 ^ 31) :
    fulfilB needRow budget = true ↔ Covers needRow budget := by
  unfold fulfilB Covers
  rw [List.all_eq_true]
  constructor
  · intro h r hr hpos
    have h2 := ite_false_true.mp (h r (List.mem_range.mpr hr))
    rw [u32cast_small (hneed r hr)] at h2
    push_neg at h2
    exact h2 (by exact_mod_cast hpos)
  · intro h r hrmem
    have hr := List.mem_range.mp hrmem
    apply ite_false_true.mpr
    rw [u32cast_small (hneed r hr)]
    rintro ⟨h1, h2⟩
    have hpos : 0 < needRow.getD r 0 := by exact_mod_cast h1
    have h3 := h r hr hpos
    omega

theorem addBudget_eq_addRowZ (budget : List Int) (row : List Nat)
    (hrow : ∀ r < budget.length, row.getD r 0 < 2 ^ 31)
    (hbound : ∀ r < budget.length,
      -2 ^ 31 ≤ budget.getD r 0 + ((row.getD r 0 : Nat) : Int) ∧
      budget.getD r 0 + ((row.getD r 0 : Nat) : Int) < 2 ^ 31) :
    addBudget budget row = addRowZ budget row := by
  unfold addBudget addRowZ
  apply List.map_congr_left
  intro r hr
  have hrlt := List.mem_range.mp hr
  rw [u32cast_small (hrow r hrlt)]
  exact wrapI32_eq_self (hbound r hrlt).1 (hbound r hrlt).2

theorem SchedFrom_append (alloc need : List (List Nat)) :
    ∀ (sched : List Nat) (w : List Int) (t : Nat),
      SchedFrom alloc need w sched → t < alloc.length →
      Covers (need.getD t []) (workAfterZ alloc w sched) →
      SchedFrom alloc need w (sched ++ [t]) := by
  intro sched
  induction sched with
  | nil =>
    intro w t h ht hc
    exact ⟨ht, hc, trivial⟩
  | cons u us ih =>
    intro w t h ht hc
    obtain ⟨h1, h2, h3⟩ := h
    exact ⟨h1, h2, ih _ t h3 ht hc⟩

theorem Covers_mono (needRow : List Nat) (w1 w2 : List Int)
    (hlen : w1.length = w2.length)
    (hle : ∀ r < w1.length, w1.getD r 0 ≤ w2.getD r 0)
    (h : Covers needRow w1) : Covers needRow w2 := by
  intro r hr hpos
  have hr1 : r < w1.length := by omega
  exact le_trans (h r hr1 hpos) (hle r hr1)

theorem row_getD_eq_mval (need : List (List Nat)) (t r : Nat) :
    (need.getD t []).getD r 0 = mval need t r := rfl

theorem bankInv_mark (avail : List Int) (alloc need : List (List Nat))
    (hn1 : ∀ t, ∀ r < avail.length, mval need t r < 2 ^ 31)
    (ha1 : ∀ t, ∀ r < avail.length, mval alloc t r < 2 ^ 31)
    (hav : ∀ r < avail.length,
      -2 ^ 31 ≤ avail.getD r 0 ∧ avail.getD r 0 + colTotal alloc r < 2 ^ 31)
    (budget : List Int) (finish : List Bool) (t : Nat)
    (ht : t < alloc.length)
    (hInv : BankInv avail alloc need budget finish)
    (hfin : finish.getD t true = false)
    (hful : fulfilB (need.getD t []) budget = true) :
    BankInv avail alloc need (addBudget budget (alloc.getD t []))
      (finish.set t true) := by
  obtain ⟨sched, hnd, hsf, hlt, hbud, hblen, hflen, hiff⟩ := hInv
  have htns : t ∉ sched := by
    intro hmem
    rw [(hiff t ht).mpr hmem] at hfin
    exact absurd hfin (by simp)
  have hnd2 : (sched ++ [t]).Nodup := by
    rw [List.nodup_append]
    refine ⟨hnd, List.nodup_singleton t, ?_⟩
    intro a ha hb
    rw [List.mem_singleton] at hb
    subst hb
    exact htns ha
  have hcov : Covers (need.getD t []) budget := by
    rw [← fulfil_iff_covers _ _ ?hb]
    · exact hful
    case hb =>
      intro r hr
      rw [row_getD_eq_mval]
      exact hn1 t r (by omega)
  have hsum_eq : ∀ r,
      ((sched ++ [t]).map (fun u => ((mval alloc u r : Nat) : Int))).sum =
        (sched.map (fun u => ((mval alloc u r : Nat) : Int))).sum +
          ((mval alloc t r : Nat) : Int) := by
    intro r
    rw [List.map_append, List.sum_append]
    simp
  have hadd : addBudget budget (alloc.getD t []) =
      addRowZ budget (alloc.getD t []) := by
    apply addBudget_eq_addRowZ
    · intro r hr
      rw [row_getD_eq_mval]
      exact ha1 t r (by omega)
    · intro r hr
      have hrA : r < avail.length := by omega
      have hbr : budget.getD r 0 = avail.getD r 0 +
          (sched.map (fun u => ((mval alloc u r : Nat) : Int))).sum := by
        rw [hbud]
        exact getD_workAfterZ alloc sched avail r hrA
      have hle : ((sched ++ [t]).map
          (fun u => ((mval alloc u r : Nat) : Int))).sum ≤ colTotal alloc r := by
        apply sum_sched_le_colTotal alloc r _ hnd2
        intro u hu
        rcases List.mem_append.mp hu with h | h
        · exact hlt u h
        · rw [List.mem_singleton.mp h]
          exact ht
      have hge : (0 : Int) ≤ ((sched ++ [t]).map
          (fun u => ((mval alloc u r : Nat) : Int))).sum := by
        apply List.sum_nonneg
        intro x hx
        obtain ⟨u, -, rfl⟩ := List.mem_map.mp hx
        positivity
      rw [row_getD_eq_mval, hbr]
      rw [hsum_eq r] at hle hge
      have hb1 := (hav r hrA).1
      have hb2 := (hav r hrA).2
      omega
  refine ⟨sched ++ [t], hnd2, ?_, ?_, ?_, ?_, ?_, ?_⟩
  · apply SchedFrom_append alloc need sched avail t hsf ht
    rw [← hbud]
    exact hcov
  · intro u hu
    rcases List.mem_append.mp hu with h | h
    · exact hlt u h
    · rw [List.mem_singleton.mp h]
      exact ht
  · rw [hadd, hbud, workAfterZ_append]
  · rw [hadd, length_addRowZ]
    exact hblen
  · rw [List.length_set]
    exact hflen
  · intro u hu
    by_cases hut : u = t
    · subst hut
      rw [getD_set_self _ _ _ _ (by omega)]
      simp
    · rw [getD_set_ne _ _ _ (fun hh => hut hh.symm)]
      rw [hiff u hu]
      constructor
      · intro hm
        exact List.mem_append.mpr (Or.inl hm)
      · intro hm
        rcases List.mem_append.mp hm with h | h
        · exact h
        · exact absurd (List.mem_singleton.mp h) hut

theorem sweep_go_bundle (avail : List Int) (alloc need : List (List Nat))
    (hA : 0 < avail.length)
    (hn1 : ∀ t, ∀ r < avail.length, mval need t r < 2 ^ 31)
    (ha1 : ∀ t, ∀ r < avail.length, mval alloc t r < 2 ^ 31)
    (hav : ∀ r < avail.length,
      -2 ^ 31 ≤ avail.getD r 0 ∧ avail.getD r 0 + colTotal alloc r < 2 ^ 31) :
    ∀ (ts : List Nat) (st : BankSt), (∀ t ∈ ts, t < alloc.length) →
      BankInv avail alloc need st.budget st.finish →
      BankInv avail alloc need
          (ts.foldl (sweepStep alloc need) st).budget
          (ts.foldl (sweepStep alloc need) st).finish ∧
      (∀ t0, st.finish.getD t0 true = true →
        (ts.foldl (sweepStep alloc need) st).finish.getD t0 true = true) ∧
      (st.progress = true →
        (ts.foldl (sweepStep alloc need) st).progress = true) ∧
      (st.progress = false →
        (ts.foldl (sweepStep alloc need) st).progress = true →
        ∃ t0, t0 < alloc.length ∧ st.finish.getD t0 true = false ∧
          (ts.foldl (sweepStep alloc need) st).finish.getD t0 true = true) := by
  intro ts
  induction ts with
  | nil =>
    intro st hts hInv
    refine ⟨hInv, fun t0 h => h, fun h => h, fun h1 h2 => ?_⟩
    rw [List.foldl_nil, h1] at h2
    exact absurd h2 (by simp)
  | cons t ts ih =>
    intro st hts hInv
    have ht : t < alloc.length := hts t (List.mem_cons_self t ts)
    have hts' : ∀ u ∈ ts, u < alloc.length :=
      fun u hu => hts u (List.mem_cons_of_mem t hu)
    rw [List.foldl_cons]
    by_cases hfin : st.finish.getD t true = true
    · have hstep : sweepStep alloc need st t = st := by
        unfold sweepStep
        rw [if_pos hfin]
      rw [hstep]
      exact ih st hts' hInv
    · rw [Bool.not_eq_true] at hfin
      by_cases hful : fulfilB (need.getD t []) st.budget = true
      · have hblen : st.budget.length = avail.length := by
          obtain ⟨-, -, -, -, -, h5, -, -⟩ := hInv
          exact h5
        have hstep : sweepStep alloc need st t =
            ⟨addBudget st.budget (alloc.getD t []),
             st.finish.set t true, true⟩ := by
          unfold sweepStep
          rw [if_neg (by rw [hfin]; simp), if_pos hful]
          have hz : ¬(st.budget.length = 0) := by omega
          rw [if_neg hz]
        rw [hstep]
        have hInv2 := bankInv_mark avail alloc need hn1 ha1 hav
          st.budget st.finish t ht hInv hfin hful
        have hflen : st.finish.length = alloc.length := by
          obtain ⟨-, -, -, -, -, -, h6, -⟩ := hInv
          exact h6
        obtain ⟨hI, hM, hP, -⟩ := ih ⟨addBudget st.budget (alloc.getD t []),
          st.finish.set t true, true⟩ hts' hInv2
        refine ⟨hI, ?_, fun _ => hP rfl, fun _ _ => ?_⟩
        · intro t0 h0
          apply hM
          show (st.finish.set t true).getD t0 true = true
          by_cases ht0 : t = t0
          · subst ht0
            rw [h0] at hfin
            exact absurd hfin (by simp)
          · rw [getD_set_ne _ _ _ ht0]
            exact h0
        · refine ⟨t, ht, hfin, ?_⟩
          apply hM
          show (st.finish.set t true).getD t true = true
          rw [getD_set_self _ _ _ _ (by omega)]
      · have hstep : sweepStep alloc need st t = st := by
          unfold sweepStep
          rw [if_neg (by rw [hfin]; simp), if_neg hful]
        rw [hstep]
        exact ih st hts' hInv

theorem sweep_progress_mono (alloc need : List (List Nat)) :
    ∀ (ts : List Nat) (st : BankSt), st.progress = true →
      (ts.foldl (sweepStep alloc need) st).progress = true := by
  intro ts
  induction ts with
  | nil =>
    intro st h
    exact h
  | cons u us ih =>
    intro st h
    rw [List.foldl_cons]
    apply ih
    unfold sweepStep
    by_cases hf : st.finish.getD u true = true
    · rw [if_pos hf]
      exact h
    · rw [if_neg hf]
      by_cases hl : fulfilB (need.getD u []) st.budget = true
      · rw [if_pos hl]
      · rw [if_neg hl]
        exact h

theorem sweep_go_fix (alloc need : List (List Nat)) :
    ∀ (ts : List Nat) (st : BankSt),
      (ts.foldl (sweepStep alloc need) st).progress = false →
      ts.foldl (sweepStep alloc need) st = st ∧
      (∀ t ∈ ts, st.finish.getD t true = false →
        fulfilB (need.getD t []) st.budget = false) := by
  intro ts
  induction ts with
  | nil =>
    intro st h
    exact ⟨rfl, fun t ht => absurd ht (by simp)⟩
  | cons t ts ih =>
    intro st hprog
    have hmono := sweep_progress_mono alloc need ts
    rw [List.foldl_cons] at hprog ⊢
    by_cases hfin : st.finish.getD t true = true
    · have hstep : sweepStep alloc need st t = st := by
        unfold sweepStep
        rw [if_pos hfin]
      rw [hstep] at hprog ⊢
      obtain ⟨h1, h2⟩ := ih st hprog
      refine ⟨h1, fun u hu hf => ?_⟩
      rcases List.mem_cons.mp hu with rfl | hm
      · rw [hfin] at hf
        exact absurd hf (by simp)
      · exact h2 u hm hf
    · rw [Bool.not_eq_true] at hfin
      by_cases hful : fulfilB (need.getD t []) st.budget = true
      · exfalso
        have hstep : (sweepStep alloc need st t).progress = true := by
          unfold sweepStep
          rw [if_neg (by rw [hfin]; simp), if_pos hful]
        have hcontr := hmono (sweepStep alloc need st t) hstep
        rw [hprog] at hcontr
        exact absurd hcontr (by simp)
      · have hstep : sweepStep alloc need st t = st := by
          unfold sweepStep
          rw [if_neg (by rw [hfin]; simp), if_neg hful]
        rw [hstep] at hprog ⊢
        obtain ⟨h1, h2⟩ := ih st hprog
        refine ⟨h1, fun u hu hf => ?_⟩
        rcases List.mem_cons.mp hu with rfl | hm
        · rw [Bool.not_eq_true] at hful
          exact hful
        · exact h2 u hm hf

theorem getD_replicate_false {n t : Nat} (ht : t < n) :
    (List.replicate n false).getD t true = false := by
  rw [List.getD_eq_getElem?_getD, List.getElem?_replicate, if_pos ht]
  rfl

theorem unfin_lt_of_new (n : Nat) (f1 f2 : List Bool)
    (hmono : ∀ t, f1.getD t true = true → f2.getD t true = true)
    (t0 : Nat) (ht0 : t0 < n) (h1 : f1.getD t0 true = false)
    (h2 : f2.getD t0 true = true) :
    unfin n f2 < unfin n f1 := by
  unfold unfin
  apply Finset.card_lt_card
  have hsub : (Finset.range n).filter (fun t => f2.getD t true = false) ⊆
      (Finset.range n).filter (fun t => f1.getD t true = false) := by
    intro u hu
    rw [Finset.mem_filter] at hu ⊢
    refine ⟨hu.1, ?_⟩
    by_cases hc : f1.getD u true = true
    · exfalso
      have h2u := hmono u hc
      rw [hu.2] at h2u
      exact absurd h2u (by simp)
    · simpa using hc
  rw [Finset.ssubset_iff_of_subset hsub]
  refine ⟨t0, ?_, ?_⟩
  · rw [Finset.mem_filter]
    exact ⟨Finset.mem_range.mpr ht0, h1⟩
  · rw [Finset.mem_filter]
    rintro ⟨-, hf⟩
    rw [h2] at hf
    exact absurd hf (by simp)

theorem checkLoop_succ (alloc need : List (List Nat)) (fuel : Nat)
    (budget : List Int) (finish : List Bool) :
    checkLoop alloc need (fuel + 1) budget finish =
      if (sweepAll alloc need ⟨budget, finish, false⟩).progress = true then
        checkLoop alloc need fuel
          (sweepAll alloc need ⟨budget, finish, false⟩).budget
          (sweepAll alloc need ⟨budget, finish, false⟩).finish
      else ((sweepAll alloc need ⟨budget, finish, false⟩).budget,
        (sweepAll alloc need ⟨budget, finish, false⟩).finish) := rfl

theorem checkLoop_fix (avail : List Int) (alloc need : List (List Nat))
    (hA : 0 < avail.length)
    (hn1 : ∀ t, ∀ r < avail.length, mval need t r < 2 ^ 31)
    (ha1 : ∀ t, ∀ r < avail.length, mval alloc t r < 2 ^ 31)
    (hav : ∀ r < avail.length,
      -2 ^ 31 ≤ avail.getD r 0 ∧ avail.getD r 0 + colTotal alloc r < 2 ^ 31) :
    ∀ (fuel : Nat) (budget : List Int) (finish : List Bool),
      BankInv avail alloc need budget finish →
      unfin alloc.length finish < fuel →
      BankInv avail alloc need
          (checkLoop alloc need fuel budget finish).1
          (checkLoop alloc need fuel budget finish).2 ∧
        FinalFix need (checkLoop alloc need fuel budget finish).1
          (checkLoop alloc need fuel budget finish).2 := by
  intro fuel
  induction fuel with
  | zero =>
    intro budget finish hInv hm
    exact absurd hm (by omega)
  | succ fuel ih =>
    intro budget finish hInv hm
    have hbundle := sweep_go_bundle avail alloc need hA hn1 ha1 hav
      (List.range alloc.length) ⟨budget, finish, false⟩
      (fun t ht => List.mem_range.mp ht) hInv
    obtain ⟨hI, hM, -, hNew⟩ := hbundle
    rw [checkLoop_succ]
    by_cases hp : (sweepAll alloc need ⟨budget, finish, false⟩).progress = true
    · rw [if_pos hp]
      apply ih
      · exact hI
      · obtain ⟨t0, ht0, hold, hnew⟩ := hNew rfl hp
        have hlt := unfin_lt_of_new alloc.length finish
          (sweepAll alloc need ⟨budget, finish, false⟩).finish hM t0 ht0 hold hnew
        omega
    · rw [Bool.not_eq_true] at hp
      rw [if_neg (by rw [hp]; simp)]
      obtain ⟨heq, hfix⟩ := sweep_go_fix alloc need (List.range alloc.length)
        ⟨budget, finish, false⟩ hp
      have hb : (sweepAll alloc need ⟨budget, finish, false⟩).budget = budget := by
        unfold sweepAll
        rw [heq]
      have hf : (sweepAll alloc need ⟨budget, finish, false⟩).finish = finish := by
        unfold sweepAll
        rw [heq]
      rw [hb, hf]
      refine ⟨hInv, ?_⟩
      intro t ht hfint
      have hflen : finish.length = alloc.length := by
        obtain ⟨-, -, -, -, -, -, h6, -⟩ := hInv
        exact h6
      have ht2 : t < alloc.length := by
        have ht3 : t < finish.length := by simpa using ht
        omega
      exact hfix t (List.mem_range.mpr ht2) hfint

theorem SchedFrom_elems (alloc need : List (List Nat)) :
    ∀ (sched : List Nat) (w : List Int),
      SchedFrom alloc need w sched → ∀ x ∈ sched, x < alloc.length := by
  intro sched
  induction sched with
  | nil => intro w _ x hx; exact absurd hx (by simp)
  | cons u us ih =>
    intro w h x hx
    obtain ⟨h1, -, h3⟩ := h
    rcases List.mem_cons.mp hx with rfl | hx'
    · exact h1
    · exact ih _ h3 x hx'

theorem SchedFrom_drop (alloc need : List (List Nat)) :
    ∀ (p : List Nat) (w : List Int) (q : List Nat),
      SchedFrom alloc need w (p ++ q) →
      SchedFrom alloc need (workAfterZ alloc w p) q := by
  intro p
  induction p with
  | nil => intro w q h; exact h
  | cons u us ih =>
    intro w q h
    obtain ⟨-, -, h3⟩ := h
    exact ih (addRowZ w (alloc.getD u [])) q h3

theorem compl_aux (avail : List Int) (alloc need : List (List Nat))
    (hn1 : ∀ t, ∀ r < avail.length, mval need t r < 2 ^ 31)
    (b : List Int) (f : List Bool) (schedStar : List Nat)
    (hndS : schedStar.Nodup)
    (hbud : b = workAfterZ alloc avail schedStar)
    (hblen : b.length = avail.length)
    (hflen : f.length = alloc.length)
    (hifff : ∀ t < alloc.length, (f.getD t true = true ↔ t ∈ schedStar))
    (hfix : FinalFix need b f) :
    ∀ (q p : List Nat), (p ++ q).Nodup →
      SchedFrom alloc need avail (p ++ q) →
      (∀ t ∈ p, f.getD t true = true) →
      ∀ t ∈ q, f.getD t true = true := by
  intro q
  induction q with
  | nil =>
    intro p _ _ _ t ht
    exact absurd ht (by simp)
  | cons u q ih =>
    intro p hnd hsf hp t htq
    have helems := SchedFrom_elems alloc need (p ++ (u :: q)) avail hsf
    have hu : f.getD u true = true := by
      have hsf2 := SchedFrom_drop alloc need p avail (u :: q) hsf
      obtain ⟨hun, hcov, -⟩ := hsf2
      have hple : ∀ r < (workAfterZ alloc avail p).length,
          (workAfterZ alloc avail p).getD r 0 ≤ b.getD r 0 := by
        intro r hr0
        have hr : r < avail.length := by
          rw [length_workAfterZ] at hr0
          exact hr0
        rw [hbud, getD_workAfterZ alloc p avail r hr,
          getD_workAfterZ alloc schedStar avail r hr]
        have hndp : p.Nodup := (List.nodup_append.mp hnd).1
        have hsump : (p.map (fun x => ((mval alloc x r : Nat) : Int))).sum ≤
            (schedStar.map (fun x => ((mval alloc x r : Nat) : Int))).sum := by
          rw [← List.sum_toFinset _ hndp, ← List.sum_toFinset _ hndS]
          apply Finset.sum_le_sum_of_subset_of_nonneg
          · intro x hx
            rw [List.mem_toFinset] at hx ⊢
            have hxn : x < alloc.length :=
              helems x (List.mem_append.mpr (Or.inl hx))
            exact (hifff x hxn).mp (hp x hx)
          · intro x _ _
            positivity
        omega
      have hcovb : Covers (need.getD u []) b :=
        Covers_mono _ _ _ (by rw [length_workAfterZ, hblen]) hple hcov
      have hful : fulfilB (need.getD u []) b = true := by
        apply (fulfil_iff_covers _ _ ?_).mpr hcovb
        intro r hr
        rw [row_getD_eq_mval]
        exact hn1 u r (by omega)
      cases hvf : f.getD u true with
      | false =>
        have hcon := hfix u (by
          rw [hflen]
          exact hun) hvf
        rw [hful] at hcon
        exact absurd hcon (by simp)
      | true => rfl
    rcases List.mem_cons.mp htq with rfl | htq'
    · exact hu
    · have hassoc : (p ++ [u]) ++ q = p ++ (u :: q) := by
        rw [List.append_assoc]
        rfl
      apply ih (p ++ [u]) ?_ ?_ ?_ t htq'
      · rw [hassoc]
        exact hnd
      · rw [hassoc]
        exact hsf
      · intro x hx
        rcases List.mem_append.mp hx with h | h
        · exact hp x h
        · rw [List.mem_singleton.mp h]
          exact hu

theorem checkCore_spec (avail : List Int) (alloc need : List (List Nat))
    (hB : CheckBounded avail alloc need) :
    (checkCore avail alloc need = none ↔ BankersSafe avail alloc need) ∧
    (∀ id, checkCore avail alloc need = some id →
      id < alloc.length ∧ ¬ Finishable avail alloc need id) := by
  obtain ⟨h1024, hA, hneedB, hallocB, havB⟩ := hB
  have hn1 : ∀ t, ∀ r < avail.length, mval need t r < 2 ^ 31 := by
    intro t r hr
    by_cases ht : t < need.length
    · exact hneedB t ht r hr
    · unfold mval
      have hrow : need.getD t [] = [] := List.getD_eq_default _ _ (by omega)
      rw [hrow]
      norm_num
  have ha1 : ∀ t, ∀ r < avail.length, mval alloc t r < 2 ^ 31 := by
    intro t r hr
    by_cases ht : t < alloc.length
    · exact hallocB t ht r hr
    · unfold mval
      have hrow : alloc.getD t [] = [] := List.getD_eq_default _ _ (by omega)
      rw [hrow]
      norm_num
  have hInv0 : BankInv avail alloc need avail
      (List.replicate alloc.length false) := by
    refine ⟨[], List.nodup_nil, trivial, ?_, rfl, rfl, by simp, ?_⟩
    · intro t ht
      exact absurd ht (by simp)
    · intro t ht
      rw [getD_replicate_false ht]
      simp
  have hm0 : unfin alloc.length (List.replicate alloc.length false) <
      alloc.length + 1 := by
    unfold unfin
    have hle := Finset.card_filter_le (Finset.range alloc.length)
      (fun t => (List.replicate alloc.length false).getD t true = false)
    rw [Finset.card_range] at hle
    omega
  obtain ⟨hIfin, hFix⟩ := checkLoop_fix avail alloc need hA hn1 ha1 havB
    (alloc.length + 1) avail (List.replicate alloc.length false) hInv0 hm0
  obtain ⟨schedS, hndS, hsfS, hltS, hbudS, hblenS, hflenS, hiffS⟩ := hIfin
  have hcc : checkCore avail alloc need = (List.range 1024).find?
      (fun i => !((checkLoop alloc need (alloc.length + 1) avail
        (List.replicate alloc.length false)).2.getD i true)) := rfl
  have hcompl : ∀ (sched' : List Nat), sched'.Nodup →
      SchedFrom alloc need avail sched' → ∀ t ∈ sched',
        (checkLoop alloc need (alloc.length + 1) avail
          (List.replicate alloc.length false)).2.getD t true = true := by
    intro sched' hnd' hsf'
    exact compl_aux avail alloc need hn1 _ _ schedS hndS hbudS hblenS hflenS
      hiffS hFix sched' [] (by simpa using hnd') (by simpa using hsf')
      (by intro x hx; exact absurd hx (by simp))
  constructor
  · constructor
    · intro hnone
      rw [hcc, List.find?_eq_none] at hnone
      have hallfin : ∀ t < alloc.length,
          (checkLoop alloc need (alloc.length + 1) avail
            (List.replicate alloc.length false)).2.getD t true = true := by
        intro t ht
        have hh := hnone t (List.mem_range.mpr (by omega))
        simpa using hh
      exact ⟨schedS, hndS, hsfS, fun t ht => (hiffS t ht).mp (hallfin t ht)⟩
    · intro hsafe
      obtain ⟨sched', hnd', hsf', hall'⟩ := hsafe
      rw [hcc, List.find?_eq_none]
      intro i hi
      simp only [Bool.not_eq_true', Bool.not_eq_false]
      by_cases hin : i < alloc.length
      · exact hcompl sched' hnd' hsf' i (hall' i hin)
      · exact List.getD_eq_default _ _ (by omega)
  · intro id hid
    rw [hcc] at hid
    have hpred := @List.find?_some _
      (fun i => !((checkLoop alloc need (alloc.length + 1) avail
        (List.replicate alloc.length false)).2.getD i true)) id
      (List.range 1024) hid
    have hfalse : (checkLoop alloc need (alloc.length + 1) avail
        (List.replicate alloc.length false)).2.getD id true = false := by
      simpa using hpred
    have hidn : id < alloc.length := by
      by_contra hc
      have hdef : (checkLoop alloc need (alloc.length + 1) avail
          (List.replicate alloc.length false)).2.getD id true = true :=
        List.getD_eq_default _ _ (by omega)
      rw [hdef] at hfalse
      exact absurd hfalse (by simp)
    refine ⟨hidn, ?_⟩
    rintro ⟨sched', hnd', hsf', hmem'⟩
    have htrue := hcompl sched' hnd' hsf' id hmem'
    rw [htrue] at hfalse
    exact absurd hfalse (by simp)

/-! ## Claim theorems -/

/-- C1: the claim says the last `unlink` clears the target's inode bitmap
bit (popcount drops by one) and returns its data blocks to the free pool.
The code does neither: `vfs_unlink` drops the block list returned by
`clear_size` without `dealloc_data`, and never calls `dealloc_inode`.  At a
root directory holding the single entry `"a" ↦ inode 1` (one 512-byte data
block, block 1), unlink succeeds (returns 0) yet the inode bitmap is
unchanged and block 1 stays allocated. -/
theorem c1_unlink_last_link_leaks_inode_and_data :
    (find_inode_by_id 1 (rootDir fsC1)).length = 1 ∧
    (Inode.vfs_unlink fsC1 "a").1 = 0 ∧
    (Inode.vfs_unlink fsC1 "a").2.inodeBitmap = fsC1.inodeBitmap ∧
    (Inode.vfs_unlink fsC1 "a").2.inodePopcount = fsC1.inodePopcount ∧
    (Inode.vfs_unlink fsC1 "a").2.dataBitmap.getD 1 false = true := by
  decide

/-- C8: `sys_read`, `sys_write` and `sys_close` return `-1` both for an fd
beyond the table and for a closed slot; `sys_fstat` returns `-1` for a
closed slot but indexes the fd table without a bounds check, so an
out-of-range fd panics the kernel (`none`) instead of returning `-1`. -/
theorem c8_sys_fstat_out_of_range_fd_panics :
    sys_read [some ⟨true, true⟩] 1 7 = -1 ∧
    sys_write [some ⟨true, true⟩] 1 7 = -1 ∧
    (sys_close [some ⟨true, true⟩] 1).1 = -1 ∧
    sys_read [none] 0 7 = -1 ∧
    sys_write [none] 0 7 = -1 ∧
    (sys_close [none] 0).1 = -1 ∧
    sys_fstat [none] 0 0 = some (-1) ∧
    sys_fstat [some ⟨true, true⟩] 1 0 = none := by
  decide

/-- C6 (counterexample): `MutexSpin::unlock` does not assert that the mutex
is held: on an unheld spin mutex (with the monitor in a consistent idle
state) it silently proceeds — it leaves `locked` cleared and calls
`release`, which increments `avail` and wraps the zero `alloc` cell —
instead of tripping an assertion. -/
theorem c6_counterexample_spin_unlock_unheld_proceeds :
    MutexSpin.unlock 0 0 false ⟨[1], [[0]], [[0]]⟩ =
      (false, ⟨[2], [[4294967295]], [[0]]⟩) := by
  decide

/-- C6 (amended): only the blocking variant's `unlock` asserts that the
mutex is held (`none` exactly when `locked` is false); the spin variant's
`unlock` unconditionally clears `locked` and calls `release`. -/
theorem c6_only_blocking_unlock_asserts (tid resid : Nat)
    (s : MutexBlockingState) (locked : Bool) (m : ResMonitor) :
    (MutexBlocking.unlock tid resid s m = none ↔ s.locked = false) ∧
    MutexSpin.unlock tid resid locked m = (false, SyncRes.release m tid resid) := by
  constructor
  · unfold MutexBlocking.unlock
    cases h : s.locked <;> simp [h]
  · rfl

/-- C3: the claim says a `DEAD_LOCK` return leaves all state unchanged and
in particular that the caller was never added to any wait queue.
`MutexBlocking::lock` violates this: it pushes the caller onto the wait
queue *before* running `need`/`check`, and the `DEAD_LOCK` early return
leaves it enqueued.  At the classic two-mutex cycle (thread 0 holds
resource 0 and needs 1, thread 1 holds resource 1 and now locks mutex 0),
thread 1 gets `DEAD_LOCK` yet sits in the queue, to be woken spuriously by
a later unlock. -/
theorem c3_blocking_lock_deadlock_leaves_caller_enqueued :
    (MutexBlocking.lock true 1 0 ⟨true, []⟩ mCycle).1 =
      SyncOutcome.ret DEAD_LOCK ∧
    (MutexBlocking.lock true 1 0 ⟨true, []⟩ mCycle).2.1.wait_queue = [1] := by
  decide

/-- C10: `Inode::inode_id` computes the inode number by scanning the root
directory for the entry whose disk-inode position matches the handle's and
unwraps the result; for a handle whose inode is referenced by no
root-directory entry (e.g. unlinked while a descriptor stays open) the scan
comes back empty, so `inode_id` — and with it the `sys_fstat` path that
calls it — panics (`none`) instead of returning an error value. -/
theorem c10_inode_id_panics_on_unlinked_handle
    (fs : EasyFileSystem) (ino : Nat)
    (h : ∀ e ∈ (rootDir fs).entries, e.inode_id ≠ ino) :
    Inode.inodeId fs (getDiskInodePos ino) = none ∧
    sysFstatIno fs (getDiskInodePos ino) = none := by
  have hN : List.find?
      (fun e => getDiskInodePos e.inode_id == getDiskInodePos ino)
      (rootDir fs).entries = none := by
    rw [List.find?_eq_none]
    intro e he
    simp only [beq_iff_eq]
    intro hpos
    exact h e he (getDiskInodePos_inj hpos)
  have hfind : find_ino_by_blkid (getDiskInodePos ino) (rootDir fs) = none := by
    unfold find_ino_by_blkid
    rw [hN]
    rfl
  refine ⟨hfind, ?_⟩
  unfold sysFstatIno Inode.inodeId
  rw [hfind]
  rfl

/-- C10 witness: a concrete filesystem whose root references only inode 1,
and a handle at the disk position of the unreferenced inode 2. -/
theorem c10_witness :
    Inode.inodeId fsC10 (getDiskInodePos 2) = none ∧
    sysFstatIno fsC10 (getDiskInodePos 2) = none :=
  c10_inode_id_panics_on_unlinked_handle fsC10 2 (by decide)

/-- C9: `vfs_link(old, new)` returns 0 and appends a directory entry
`(new, old's inode id)` whenever `old` resolves — no check that `new`
already names an entry — so linking onto an existing name leaves the
directory with two entries of that name, while `create` refuses an existing
name. -/
theorem c9_vfs_link_allows_duplicate_names
    (fs : EasyFileSystem) (old_name new_name : String) (i : Nat)
    (dent : DirEntry) (r : Int × EasyFileSystem)
    (hne : fs.inodes ≠ [])
    (hold : find_dentry old_name (rootDir fs) = some (i, dent))
    (hlink : Inode.vfs_link fs old_name new_name = some r) :
    r.1 = 0 ∧
    (rootDir r.2).entries = (rootDir fs).entries ++ [⟨new_name, dent.inode_id⟩] ∧
    ((find_inode_id new_name (rootDir fs)).isSome →
      2 ≤ ((rootDir r.2).entries.filter (fun e => e.name == new_name)).length ∧
      Inode.create fs new_name = none) := by
  unfold Inode.vfs_link at hlink
  rw [hold] at hlink
  obtain ⟨fs1, hfs1, rfl⟩ := Option.map_eq_some'.mp hlink
  have hents := dirAppend_entries hne hfs1
  refine ⟨rfl, hents, fun hnew => ⟨?_, ?_⟩⟩
  · rw [hents, List.filter_append]
    have hex : ∃ e ∈ (rootDir fs).entries, (e.name == new_name) = true := by
      obtain ⟨e, he⟩ := Option.isSome_iff_exists.mp
        (by simpa [find_inode_id] using hnew :
          ((rootDir fs).entries.find? (fun e => e.name == new_name)).isSome)
      have hpe := @List.find?_some _ (fun x => x.name == new_name) e
        ((rootDir fs).entries) he
      exact ⟨e, List.mem_of_find?_eq_some he, by simpa using hpe⟩
    obtain ⟨e, he, hename⟩ := hex
    have h1 : 0 < ((rootDir fs).entries.filter
        (fun e => e.name == new_name)).length :=
      List.length_pos.mpr (fun hemp =>
        (List.filter_eq_nil_iff.mp hemp) e he (by simpa using hename))
    have h2 : (List.filter (fun e => e.name == new_name)
        [DirEntry.mk new_name dent.inode_id]).length = 1 := by
      simp
    rw [List.length_append, h2]
    omega
  · unfold Inode.create
    rw [if_pos hnew]

/-- C9 witness: linking `"a"` onto the existing name `"b"` in `fsC9`
produces two entries named `"b"`, while `create "b"` is refused. -/
theorem c9_witness :
    2 ≤ ((rootDir fsC9link).entries.filter (fun e => e.name == "b")).length ∧
    Inode.create fsC9 "b" = none :=
  (c9_vfs_link_allows_duplicate_names fsC9 "a" "b" 0 ⟨"a", 1⟩ (0, fsC9link)
    (by decide) (by decide) (by decide)).2.2 (by decide)

/-- C7: a successful `unlink` shrinks the directory by exactly one 32-byte
slot; unlinking the last entry just drops it, unlinking a non-last entry at
index `idx` copies the current last entry into slot `idx` and then drops the
last slot; concretely, after `create "x"; create "y"; create "z"`,
`unlink "y"` leaves `ls() = ["x", "z"]` and directory size 64. -/
theorem c7_unlink_compacts_and_shrinks
    (fs : EasyFileSystem) (name : String) (idx : Nat) (dent : DirEntry)
    (hne : fs.inodes ≠ [])
    (h : find_dentry name (rootDir fs) = some (idx, dent)) :
    (Inode.vfs_unlink fs name).1 = 0 ∧
    (rootDir (Inode.vfs_unlink fs name).2).entries.length + 1 =
      (rootDir fs).entries.length ∧
    (rootDir (Inode.vfs_unlink fs name).2).dirSize + 32 = (rootDir fs).dirSize ∧
    (idx + 1 = (rootDir fs).entries.length →
      (rootDir (Inode.vfs_unlink fs name).2).entries =
        (rootDir fs).entries.dropLast) ∧
    (idx + 1 < (rootDir fs).entries.length →
      (rootDir (Inode.vfs_unlink fs name).2).entries =
        ((rootDir fs).entries.set idx
          ((rootDir fs).entries.getD ((rootDir fs).entries.length - 1)
            ⟨"", 0⟩)).dropLast) ∧
    scenarioXYZ.map (fun s => ((Inode.vfs_unlink s "y").1,
        Inode.ls (Inode.vfs_unlink s "y").2,
        (rootDir (Inode.vfs_unlink s "y").2).dirSize)) =
      some (0, ["x", "z"], 64) := by
  obtain ⟨hidx, -, -⟩ := find_dentry_spec h
  obtain ⟨h0, hent⟩ := vfs_unlink_found fs name idx dent hne h
  have hlen : (rootDir (Inode.vfs_unlink fs name).2).entries.length =
      (rootDir fs).entries.length - 1 := by
    rw [hent]
    by_cases hc : idx < (rootDir fs).entries.length - 1 <;>
      simp [hc, List.length_take]
  refine ⟨h0, by omega, ?_, ?_, ?_, by decide⟩
  · unfold DInode.dirSize
    omega
  · intro hlast
    rw [hent, if_neg (by omega), List.dropLast_eq_take]
  · intro hmid
    rw [hent, if_pos (by omega), List.dropLast_eq_take, List.length_set]

/-- C7 witness: unlinking the non-last entry `"a"` of `fsC9` (entries
`["a", "b"]`) succeeds and leaves one entry. -/
theorem c7_witness :
    (Inode.vfs_unlink fsC9 "a").1 = 0 ∧
    (rootDir (Inode.vfs_unlink fsC9 "a").2).entries.length + 1 =
      (rootDir fsC9).entries.length :=
  ⟨(c7_unlink_compacts_and_shrinks fsC9 "a" 0 ⟨"a", 1⟩ (by decide) (by decide)).1,
   (c7_unlink_compacts_and_shrinks fsC9 "a" 0 ⟨"a", 1⟩ (by decide) (by decide)).2.1⟩

/-- C5: `down` decrements `count`; on a negative result it marks `need` and
either (check unsafe) restores `count` — the state and queue are otherwise
untouched — and returns `DEAD_LOCK`, or (check safe) appends the caller to
the FIFO tail and parks (returning 0 on wakeup); on a non-negative result it
calls the monitor's `acquire` and returns 0.  `up` increments `count`,
calls the monitor's `acquire` (not `release`), and exactly when the new
count is still `≤ 0` pops the single front waiter and wakes it. -/
theorem c5_semaphore_down_up_semantics
    (detect : Bool) (tid resid : Nat) (s : SemState) (m : ResMonitor) :
    (0 ≤ s.count - 1 →
      Semaphore.down detect tid resid s m =
        (.ret 0, { s with count := s.count - 1 }, SyncRes.acquire m tid resid)) ∧
    (s.count - 1 < 0 →
      (∀ w m2,
        SyncRes.check detect (SyncRes.needOp m tid resid) tid = (some w, m2) →
        Semaphore.down detect tid resid s m = (.ret DEAD_LOCK, s, m2)) ∧
      (∀ m2,
        SyncRes.check detect (SyncRes.needOp m tid resid) tid = (none, m2) →
        Semaphore.down detect tid resid s m =
          (.blocked, ⟨s.count - 1, s.wait_queue ++ [tid]⟩, m2))) ∧
    ((Semaphore.up tid resid s m).2.1 = SyncRes.acquire m tid resid ∧
     (Semaphore.up tid resid s m).1.count = s.count + 1) ∧
    (s.count + 1 ≤ 0 →
      ∀ w rest, s.wait_queue = w :: rest →
        (Semaphore.up tid resid s m).2.2 = some w ∧
        (Semaphore.up tid resid s m).1.wait_queue = rest) ∧
    (0 < s.count + 1 →
      (Semaphore.up tid resid s m).2.2 = none ∧
      (Semaphore.up tid resid s m).1.wait_queue = s.wait_queue) := by
  refine ⟨?_, ?_, ?_, ?_, ?_⟩
  · intro hge
    unfold Semaphore.down
    rw [if_neg (by omega)]
  · intro hlt
    constructor
    · intro w m2 hchk
      obtain ⟨c, q⟩ := s
      unfold Semaphore.down
      rw [if_pos hlt]
      simp only [hchk]
      have hs : c - 1 + 1 = c := by omega
      simp [hs]
    · intro m2 hchk
      unfold Semaphore.down
      rw [if_pos hlt]
      simp only [hchk]
  · unfold Semaphore.up
    by_cases hc : s.count + 1 ≤ 0
    · rw [if_pos hc]
      cases hq : s.wait_queue <;> simp
    · rw [if_neg hc]
      exact ⟨rfl, rfl⟩
  · intro hc w rest hq
    unfold Semaphore.up
    rw [if_pos hc, hq]
    exact ⟨rfl, rfl⟩
  · intro hc
    unfold Semaphore.up
    rw [if_neg (by omega)]
    exact ⟨rfl, rfl⟩

/-- C5 witness: the four behaviours at concrete states — non-negative
`down` acquires; unsafe `down` restores `count` and returns `DEAD_LOCK`
leaving the queue empty; safe contended `down` appends the caller and
parks; `up` with a waiter pops exactly the front one. -/
theorem c5_witness :
    Semaphore.down true 0 0 (SemState.mk 1 []) (ResMonitor.mk [1] [] []) =
      (.ret 0, SemState.mk 0 [],
        SyncRes.acquire (ResMonitor.mk [1] [] []) 0 0) ∧
    Semaphore.down true 1 0 (SemState.mk 0 []) (ResMonitor.mk [0] [[0]] [[1]]) =
      (.ret DEAD_LOCK, SemState.mk 0 [],
        ResMonitor.mk [0] [[0], [0]] [[1], [1]]) ∧
    Semaphore.down true 1 0 (SemState.mk 0 []) (ResMonitor.mk [0] [[1]] [[0]]) =
      (.blocked, SemState.mk (-1) [1],
        ResMonitor.mk [0] [[1], [0]] [[0], [1]]) ∧
    (Semaphore.up 0 0 (SemState.mk (-1) [5]) (ResMonitor.mk [0] [[1]] [[0]])).2.2 =
      some 5 := by
  have h1 := c5_semaphore_down_up_semantics true 0 0 (SemState.mk 1 [])
    (ResMonitor.mk [1] [] [])
  have h2 := c5_semaphore_down_up_semantics true 1 0 (SemState.mk 0 [])
    (ResMonitor.mk [0] [[0]] [[1]])
  have h3 := c5_semaphore_down_up_semantics true 1 0 (SemState.mk 0 [])
    (ResMonitor.mk [0] [[1]] [[0]])
  have h4 := c5_semaphore_down_up_semantics true 0 0 (SemState.mk (-1) [5])
    (ResMonitor.mk [0] [[1]] [[0]])
  refine ⟨h1.1 (by decide), ?_, ?_, ?_⟩
  · exact (h2.2.1 (by decide)).1 0 (ResMonitor.mk [0] [[0], [0]] [[1], [1]])
      (by decide)
  · exact (h3.2.1 (by decide)).2 (ResMonitor.mk [0] [[1], [0]] [[0], [1]])
      (by decide)
  · exact ((h4.2.2.2.1 (by decide)) 5 [] rfl).1

/-- C4 (counterexample): the capacity equation fails on a legal quiescent
state.  On a fresh capacity-1 blocking mutex, after `lock(A); lock(B)
(blocks); unlock(A) (hand-off); unlock(B)` — all threads outside any
primitive — the monitor holds `avail[0] + Σ_t alloc[t][0] = 2 + (2^32 - 1)
= 4294967297 ≠ 1`: the woken thread never ran `acquire`, so its final
`release` increments `avail` past the capacity and wraps its zero `alloc`
cell. -/
theorem c4_counterexample_handoff_breaks_capacity_equation :
    handoffSeq.map (fun mf => mf.colSum 0) = some 4294967297 ∧
    (ResMonitor.new.createRes 1).1.colSum 0 = 1 ∧
    ((4294967297 : Int) ≠ 1) := by
  decide

/-- C4 (amended): the quantity `avail[r] + Σ_t alloc[t][r]` equals the
declared capacity when the column is created, and is preserved by `acquire`,
`need`, `check`, semaphore `down`/`up` and mutex `lock` unconditionally
(within the no-overflow bounds), and by the `release`-based operations —
`release` itself, both `unlock`s — exactly under the extra condition that
the releasing thread still holds a positive `alloc` count for the resource.
The hand-off wake path of the blocking mutex violates that condition (the
woken owner never ran `acquire`), which is how the counterexample sequence
breaks the equation. -/
theorem c4_capacity_equation_per_op
    (m : ResMonitor) (tid resid : Nat) (detect : Bool) (s : SemState)
    (b : MutexBlockingState) (lk : Bool) (k : Nat)
    (hOK : MonOK m) (hAv : AvailSlack m) (hAl : AllocSlack m)
    (hres : resid < m.avail.length) :
    ((k : Int) < 2 ^ 31 → (m.createRes k).1.colSum m.avail.length = k) ∧
    (∀ r, (SyncRes.acquire m tid resid).colSum r = m.colSum r) ∧
    (∀ r, (SyncRes.needOp m tid resid).colSum r = m.colSum r) ∧
    (∀ r, (SyncRes.check detect m tid).2.colSum r = m.colSum r) ∧
    (0 < mval m.alloc tid resid → tid < m.alloc.length →
      resid < (m.alloc.getD tid []).length →
      ∀ r, (SyncRes.release m tid resid).colSum r = m.colSum r) ∧
    (∀ r, (Semaphore.down detect tid resid s m).2.2.colSum r = m.colSum r) ∧
    (∀ r, (Semaphore.up tid resid s m).2.1.colSum r = m.colSum r) ∧
    (∀ r, (MutexBlocking.lock detect tid resid b m).2.2.colSum r = m.colSum r) ∧
    (∀ r, (MutexSpin.lockStep detect tid resid lk m).2.2.colSum r = m.colSum r) ∧
    (0 < mval m.alloc tid resid → tid < m.alloc.length →
      resid < (m.alloc.getD tid []).length →
      ∀ u, MutexBlocking.unlock tid resid b m = some u →
        ∀ r, u.2.1.colSum r = m.colSum r) ∧
    (0 < mval m.alloc tid resid → tid < m.alloc.length →
      resid < (m.alloc.getD tid []).length →
      ∀ r, (MutexSpin.unlock tid resid lk m).2.colSum r = m.colSum r) := by
  have hrowsle := rows_le_of_MonOK m hOK
  have hav1 := (hAv resid hres).1
  have hav2 := (hAv resid hres).2
  have hal := allocSlack_cell m hAl resid hres tid
  have hacq : ∀ r, (SyncRes.acquire m tid resid).colSum r = m.colSum r :=
    colSum_acquire m tid resid hOK hres hav1 hav2 hal
  have hchkgen : ∀ r,
      (SyncRes.check detect (SyncRes.needOp m tid resid) tid).2.colSum r =
        m.colSum r := by
    intro r
    rw [colSum_check detect _ tid (needOp_rows_le m tid resid hrowsle) r,
      colSum_needOp m tid resid hrowsle r]
  have hrel : 0 < mval m.alloc tid resid → tid < m.alloc.length →
      resid < (m.alloc.getD tid []).length →
      ∀ r, (SyncRes.release m tid resid).colSum r = m.colSum r := by
    intro hpos ht hrow r
    exact colSum_release m tid resid ht hrow hres (by omega) hav2 hpos
      (by omega) r
  refine ⟨?_, hacq, ?_, ?_, hrel, ?_, ?_, ?_, ?_, ?_, ?_⟩
  · intro hk
    unfold ResMonitor.createRes ResMonitor.colSum
    show (m.avail ++ [u32cast k]).getD m.avail.length 0 + colTotal m.alloc m.avail.length = _
    have hg : (m.avail ++ [u32cast k]).getD m.avail.length 0 = u32cast k := by
      rw [List.getD_eq_getElem?_getD,
        List.getElem?_append_right (Nat.le_refl _)]
      simp
    rw [hg, colTotal_zero_of_rows_le _ _ hrowsle]
    unfold u32cast
    rw [if_pos (by exact_mod_cast hk)]
    ring
  · exact colSum_needOp m tid resid hrowsle
  · exact colSum_check detect m tid hrowsle
  · intro r
    unfold Semaphore.down
    by_cases hc : s.count - 1 < 0
    · rw [if_pos hc]
      rcases hchk : SyncRes.check detect (SyncRes.needOp m tid resid) tid
        with ⟨v, m2⟩
      have h1 := hchkgen r
      rw [hchk] at h1
      simp only [hchk]
      cases v <;> simpa using h1
    · rw [if_neg hc]
      exact hacq r
  · intro r
    unfold Semaphore.up
    by_cases hc : s.count + 1 ≤ 0
    · rw [if_pos hc]
      cases s.wait_queue <;> exact hacq r
    · rw [if_neg hc]
      exact hacq r
  · intro r
    unfold MutexBlocking.lock
    by_cases hb : b.locked
    · rw [if_pos hb]
      rcases hchk : SyncRes.check detect (SyncRes.needOp m tid resid) tid
        with ⟨v, m2⟩
      have h1 := hchkgen r
      rw [hchk] at h1
      simp only [hchk]
      cases v <;> simpa using h1
    · rw [if_neg hb]
      exact hacq r
  · intro r
    unfold MutexSpin.lockStep
    by_cases hb : lk
    · rw [if_pos hb]
      rcases hchk : SyncRes.check detect (SyncRes.needOp m tid resid) tid
        with ⟨v, m2⟩
      have h1 := hchkgen r
      rw [hchk] at h1
      simp only [hchk]
      cases v <;> simpa using h1
    · rw [if_neg hb]
      exact hacq r
  · intro hpos ht hrow u hu r
    unfold MutexBlocking.unlock at hu
    by_cases hb : b.locked
    · rw [if_neg (by simpa using hb)] at hu
      have hu2 : u.2.1 = SyncRes.release m tid resid := by
        cases hq : b.wait_queue <;> rw [hq] at hu <;>
          simpa using congrArg (fun z => z.2.1) (Option.some.inj hu).symm
      rw [hu2]
      exact hrel hpos ht hrow r
    · rw [if_pos (by simpa using hb)] at hu
      exact absurd hu (by simp)
  · intro hpos ht hrow r
    unfold MutexSpin.unlock
    exact hrel hpos ht hrow r

/-- C4 (amended) witness: the per-op preservation at the concrete deadlock
monitor `mCycle`, with the release conditions discharged. -/
theorem c4_witness :
    (SyncRes.acquire mCycle 0 0).colSum 0 = mCycle.colSum 0 ∧
    (SyncRes.release mCycle 0 0).colSum 0 = mCycle.colSum 0 := by
  have h := c4_capacity_equation_per_op mCycle 0 0 true ⟨0, []⟩ ⟨false, []⟩
    false 1 (by decide) (by decide) (by decide) (by decide)
  exact ⟨h.2.1 0, h.2.2.2.2.1 (by decide) (by decide) (by decide) 0⟩

/-- C2: `check` implements the Banker's safety test.  When deadlock
detection is disabled for the process, `check` returns `None` without
touching the monitor.  When enabled, over the lazily grown matrices the
loop marks finished any thread whose (positive) needs are covered by the
growing work vector, and the verdict is `None` exactly when some
duplicate-free schedule of the known threads finishes all of them
(Banker's safety); a `Some id` verdict names a known thread that no valid
schedule can finish.  The bounds hypothesis keeps the `u32`/`i32`
arithmetic of the loop exact and the 1024-entry finish buffer in range. -/
theorem c2_check_implements_bankers
    (detect : Bool) (m : ResMonitor) (tid : Nat)
    (hB : CheckBounded (m.grow tid).avail (m.grow tid).alloc
      (m.grow tid).need) :
    SyncRes.check false m tid = (none, m) ∧
    (detect = true →
      ((SyncRes.check detect m tid).1 = none ↔
        BankersSafe (m.grow tid).avail (m.grow tid).alloc (m.grow tid).need) ∧
      (∀ id, (SyncRes.check detect m tid).1 = some id →
        id < (m.grow tid).alloc.length ∧
        ¬ Finishable (m.grow tid).avail (m.grow tid).alloc
          (m.grow tid).need id)) := by
  constructor
  · rfl
  · intro hd
    subst hd
    exact checkCore_spec _ _ _ hB

/-- C2 witness: the claim theorem applied at the concrete two-mutex
deadlock monitor with its bounds discharged by evaluation. -/
theorem c2_witness :
    SyncRes.check false mCycle 1 = (none, mCycle) ∧
    ((SyncRes.check true mCycle 1).1 = none ↔
      BankersSafe (mCycle.grow 1).avail (mCycle.grow 1).alloc
        (mCycle.grow 1).need) := by
  have h := c2_check_implements_bankers true mCycle 1 (by decide)
  exact ⟨h.1, (h.2 rfl).1⟩

end Spec2Proof
